import Mathlib

/- Verification of the decision-tree induction library (`lib/decision_tree.py`).

   Modelling conventions:
   - attribute values and decision labels are the raw string tokens of the data
     file (Python reads them with `line.strip().split(",")`);
   - Python dicts are modelled as association lists that preserve insertion
     order, since the source iterates over dict keys in insertion order;
   - Python floats (`math.log2` arithmetic) are modelled as real numbers;
   - a raised exception is modelled as `none` / `Except.error`;
   - iteration over a Python `set` built from a list is modelled as iteration
     over the list's elements in first-occurrence order (CPython's set order is
     implementation defined; every claim below depends only on the element set,
     or only on the iteration being a fixed function of the input list). -/

namespace DecisionTreeSpec

/-- First-occurrence deduplication with an accumulator of already-seen
elements; `dedupFirst [] l` models iterating over `set(l)`. -/
def dedupFirst (seen : List String) : List String → List String
  | [] => []
  | x :: xs => if x ∈ seen then dedupFirst seen xs else x :: dedupFirst (x :: seen) xs

/-- Model of iterating over `set(l)`: the distinct elements of `l`, each at its
first occurrence. -/
def uniqueInOrder (l : List String) : List String := dedupFirst [] l

/-- Model of `d[k] = d.get(k, 0) + 1` on an insertion-ordered dict. -/
def bump : List (String × ℕ) → String → List (String × ℕ)
  | [], k => [(k, 1)]
  | (k', v) :: rest, k =>
      if k' = k then (k', v + 1) :: rest else (k', v) :: bump rest k

/-- Model of dict lookup `d[k]` (`none` models a `KeyError`). -/
def dictGet {κ α : Type} [DecidableEq κ] : List (κ × α) → κ → Option α
  | [], _ => none
  | (k', v) :: rest, k => if k' = k then some v else dictGet rest k

/-- The keys of a modelled dict, in insertion order. -/
def dictKeys {κ α : Type} (d : List (κ × α)) : List κ := d.map Prod.fst

/-- Model of the two-level update in `_calculate_attribute_decision_counts`:
`d[value][decision] = d[value].get(decision, 0) + 1`, creating `d[value]`
if absent. -/
def bumpNested :
    List (String × List (String × ℕ)) → String → String →
      List (String × List (String × ℕ))
  | [], v, d => [(v, [(d, 1)])]
  | (v', inner) :: rest, v, d =>
      if v' = v then (v', bump inner d) :: rest
      else (v', inner) :: bumpNested rest v d

/-- `self.attributes = [row[:-1] for row in self.data]`. -/
def attributesOf (data : List (List String)) : List (List String) :=
  data.map List.dropLast

/-- `self.decisions = [row[-1] for row in self.data]` (rows produced by
`split(",")` are never empty, so `row[-1]` is total on loaded data). -/
def decisionsOf (data : List (List String)) : List String :=
  data.map (fun row => row.getLastD "")

/-- The column `[row[i] for row in attrs]`. -/
def columnOf (attrs : List (List String)) (i : ℕ) : List String :=
  attrs.map (fun row => row.getD i "")

/-- `len(self.attributes[0])`: the number of attribute columns. -/
def numAttrsOf (attrs : List (List String)) : ℕ := (attrs.headD []).length

/-- `_count_unique_attributes_values`: attribute index ↦ number of distinct
values in its column. -/
def count_unique_attributes_values (attrs : List (List String)) :
    List (ℕ × ℕ) :=
  (List.range (numAttrsOf attrs)).map
    (fun i => (i, (uniqueInOrder (columnOf attrs i)).length))

/-- `_count_value_occurrences`: attribute index ↦ (value ↦ occurrence count). -/
def count_value_occurrences (attrs : List (List String)) :
    List (ℕ × List (String × ℕ)) :=
  (List.range (numAttrsOf attrs)).map
    (fun i => (i, (columnOf attrs i).foldl bump []))

/-- `_calculate_decision_counts`: decision label ↦ global frequency. -/
def calculate_decision_counts (decisions : List String) : List (String × ℕ) :=
  decisions.foldl bump []

/-- `_calculate_attribute_decision_counts`: attribute ↦ value ↦ label ↦ count. -/
def calculate_attribute_decision_counts (attrs : List (List String))
    (decisions : List String) :
    List (ℕ × List (String × List (String × ℕ))) :=
  (List.range (numAttrsOf attrs)).map
    (fun i => (i, ((columnOf attrs i).zip decisions).foldl
        (fun m p => bumpNested m p.1 p.2) []))

/-- The derived per-dataset state of a `DecisionTree` object: the loaded table
together with all frequency tables computed by `load_data`. -/
structure Stats where
  attributes : List (List String)
  decisions : List String
  unique_attributes_values : List (ℕ × ℕ)
  value_occurrences : List (ℕ × List (String × ℕ))
  decision_counts : List (String × ℕ)
  attribute_decision_counts : List (ℕ × List (String × List (String × ℕ)))

/-- The frequency tables `load_data` derives from a raw table. -/
def mkStats (data : List (List String)) : Stats :=
  let attrs := attributesOf data
  let decs := decisionsOf data
  { attributes := attrs
    decisions := decs
    unique_attributes_values := count_unique_attributes_values attrs
    value_occurrences := count_value_occurrences attrs
    decision_counts := calculate_decision_counts decs
    attribute_decision_counts := calculate_attribute_decision_counts attrs decs }

/-- `_calculate_entropy_from_counts`: Shannon entropy in bits of a count table;
`0.0` on an empty total. -/
noncomputable def calculate_entropy_from_counts
    (decision_counts : List (String × ℕ)) : ℝ :=
  let total : ℕ := (decision_counts.map Prod.snd).sum
  if total = 0 then 0
  else
    decision_counts.foldl
      (fun e c =>
        let probability : ℝ := (c.2 : ℝ) / (total : ℝ)
        if probability > 0 then e - probability * Real.logb 2 probability else e)
      0

/-- `calculate_entropy`: entropy of the whole dataset's label distribution. -/
noncomputable def calculate_entropy (s : Stats) : ℝ :=
  calculate_entropy_from_counts s.decision_counts

/-- `calculate_conditional_entropy` for one attribute, from the global
`attribute_decision_counts` table and the global row total. -/
noncomputable def calculate_conditional_entropy (s : Stats)
    (attribute_index : ℕ) : ℝ :=
  ((dictGet s.attribute_decision_counts attribute_index).getD []).foldl
    (fun ce vc =>
      let value_probability : ℝ :=
        ((vc.2.map Prod.snd).sum : ℝ) / (s.decisions.length : ℝ)
      ce + value_probability * calculate_entropy_from_counts vc.2)
    0

/-- `calculate_information_gain`. -/
noncomputable def calculate_information_gain (s : Stats) (i : ℕ) : ℝ :=
  calculate_entropy s - calculate_conditional_entropy s i

/-- `calculate_split_information`: entropy of the attribute's own value
distribution, from the global `value_occurrences` table. -/
noncomputable def calculate_split_information (s : Stats) (i : ℕ) : ℝ :=
  calculate_entropy_from_counts ((dictGet s.value_occurrences i).getD [])

/-- `calculate_gain_ratio`, with the division-by-zero guard. -/
noncomputable def calculate_gain_ratio (s : Stats) (i : ℕ) : ℝ :=
  if calculate_split_information s i = 0 then 0
  else calculate_information_gain s i / calculate_split_information s i

/-- Modelled from the spec: "compute `gainRatio(attr)` restricted to
`rowIndices` (i.e., statistics recomputed over the subset, not the global
dataset)".  No such subset-scoped computation exists in the source; this
definition recomputes the frequency tables over the selected rows and is used
only to compare the spec's candidate-selection rule with the code's. -/
noncomputable def subsetGainRatio (data : List (List String))
    (rowIndices : List ℕ) (attr : ℕ) : ℝ :=
  calculate_gain_ratio (mkStats (rowIndices.map (fun i => data.getD i []))) attr

/-- `max(set(decisions), key=decisions.count)`: the first label (in set
iteration order, modelled as first-occurrence order) attaining the maximal
count; `none` models the `ValueError` of `max` on an empty set. -/
def majorityLabel (decisions : List String) : Option String :=
  match uniqueInOrder decisions with
  | [] => none
  | x :: xs =>
      some (xs.foldl
        (fun best l => if decisions.count l > decisions.count best then l else best) x)

/-- The candidate-selection loop of `_build_tree` (lines 121-126): iterate over
the keys of `unique_attributes_values` in insertion order (ascending attribute
index for a loaded dataset), skip used attributes, and keep the first attribute
whose global gain ratio strictly exceeds the running best, starting from
`best_attr, best_gain = None, -1`.  Note it queries `calculate_gain_ratio`,
which reads only the global tables in `s` — no row subset is consulted. -/
noncomputable def selectAttr (s : Stats) (used : Finset ℕ) : Option ℕ × ℝ :=
  (s.unique_attributes_values.map Prod.fst).foldl
    (fun acc attr =>
      if attr ∉ used ∧ calculate_gain_ratio s attr > acc.2 then
        (some attr, calculate_gain_ratio s attr)
      else acc)
    (none, -1)

theorem sel_fold_mem (used : Finset ℕ) (f : ℕ → ℝ) (a : ℕ) :
    ∀ (l : List ℕ) (acc : Option ℕ × ℝ),
      (l.foldl
        (fun acc x => if x ∉ used ∧ f x > acc.2 then (some x, f x) else acc)
        acc).1 = some a →
      acc.1 = some a ∨ (a ∈ l ∧ a ∉ used) := by
  intro l
  induction l with
  | nil => intro acc h; exact Or.inl h
  | cons x xs ih =>
      intro acc h
      simp only [List.foldl_cons] at h
      by_cases hc : x ∉ used ∧ f x > acc.2
      · rw [if_pos hc] at h
        rcases ih _ h with h1 | h2
        · simp only [Option.some.injEq] at h1
          exact Or.inr ⟨by simp [h1], h1 ▸ hc.1⟩
        · exact Or.inr ⟨List.mem_cons_of_mem _ h2.1, h2.2⟩
      · rw [if_neg hc] at h
        rcases ih _ h with h1 | h2
        · exact Or.inl h1
        · exact Or.inr ⟨List.mem_cons_of_mem _ h2.1, h2.2⟩

/-- A selected attribute is an unused key of `unique_attributes_values`. -/
theorem selectAttr_mem (s : Stats) (used : Finset ℕ) (a : ℕ)
    (h : (selectAttr s used).1 = some a) :
    a ∈ s.unique_attributes_values.map Prod.fst ∧ a ∉ used := by
  rcases sel_fold_mem used (calculate_gain_ratio s) a _ _ h with h1 | h2
  · simp at h1
  · exact h2

/-- The key set of `unique_attributes_values`, as a finset (used only as a
termination measure for the builder). -/
def keysFinset (s : Stats) : Finset ℕ :=
  (s.unique_attributes_values.map Prod.fst).toFinset

theorem keysFinset_measure (s : Stats) (used : Finset ℕ) (a : ℕ)
    (h : (selectAttr s used).1 = some a) :
    (keysFinset s \ insert a used).card < (keysFinset s \ used).card := by
  obtain ⟨hmem, hnot⟩ := selectAttr_mem s used a h
  apply Finset.card_lt_card
  constructor
  · intro x hx
    simp only [Finset.mem_sdiff, Finset.mem_insert] at hx ⊢
    exact ⟨hx.1, fun hxu => hx.2 (Or.inr hxu)⟩
  · intro hsub
    have ha : a ∈ keysFinset s \ used := by
      simp only [Finset.mem_sdiff]
      exact ⟨List.mem_toFinset.mpr hmem, hnot⟩
    have := hsub ha
    simp at this

/-- A node of the induced tree.  A `decision` node is a leaf carrying its
label; an `attr` node tests the given attribute index and owns one child per
branch value, in creation order.  (The source stores the branch value only as
a prefix of the child's cosmetic display name; here it is the explicit first
component of each child entry.  Display names carry no other information and
are omitted.) -/
inductive DTNode where
  | decision (label : String)
  | attr (attribute_index : ℕ) (children : List (String × DTNode))

/-- `self.attributes[i][a]`. -/
def attrVal (s : Stats) (i a : ℕ) : String :=
  (s.attributes.getD i []).getD a ""

/-- The branch values iterated by `for value in self.value_occurrences[best_attr]`:
the keys of the global value-occurrence dict of that attribute. -/
def valueKeys (s : Stats) (a : ℕ) : List String :=
  dictKeys ((dictGet s.value_occurrences a).getD [])

/-- The rows of `data_indices` whose value at attribute `a` equals `v`. -/
def subsetAt (s : Stats) (dataIndices : List ℕ) (a : ℕ) (v : String) : List ℕ :=
  dataIndices.filter (fun i => attrVal s i a = v)

mutual

/-- `_build_tree(data_indices, used_attributes)`: `none` models a raised
exception (which the source can only hit through `max` on an empty label set).
The three arms mirror the source: pure-label leaf, exhausted-attributes
majority leaf, and the recursive split on the selected attribute, whose
branches follow the global value list of that attribute. -/
noncomputable def build_tree (s : Stats) (dataIndices : List ℕ)
    (used : Finset ℕ) : Option DTNode :=
  let decisions := dataIndices.map (fun i => s.decisions.getD i "")
  if (uniqueInOrder decisions).length = 1 then
    some (DTNode.decision (decisions.headD ""))
  else
    match h : (selectAttr s used).1 with
    | none =>
        match majorityLabel decisions with
        | none => none
        | some m => some (DTNode.decision m)
    | some bestAttr =>
        match build_children s dataIndices decisions (insert bestAttr used)
            bestAttr (valueKeys s bestAttr) with
        | none => none
        | some children => some (DTNode.attr bestAttr children)
termination_by ((keysFinset s \ used).card, 0)
decreasing_by
  exact Prod.Lex.left _ _ (keysFinset_measure s used bestAttr h)

/-- The `for value in self.value_occurrences[best_attr]` loop of `_build_tree`:
a non-empty branch subset is recursed into with the selected attribute added to
`used`; an empty branch subset becomes a leaf labelled with the majority label
of the parent's `decisions`. -/
noncomputable def build_children (s : Stats) (dataIndices : List ℕ)
    (decisions : List String) (used' : Finset ℕ) (bestAttr : ℕ)
    (values : List String) : Option (List (String × DTNode)) :=
  match values with
  | [] => some []
  | v :: vs =>
      let subset := subsetAt s dataIndices bestAttr v
      if subset = [] then
        match majorityLabel decisions with
        | none => none
        | some m =>
            match build_children s dataIndices decisions used' bestAttr vs with
            | none => none
            | some rest => some ((v, DTNode.decision m) :: rest)
      else
        match build_tree s subset used' with
        | none => none
        | some child =>
            match build_children s dataIndices decisions used' bestAttr vs with
            | none => none
            | some rest => some ((v, child) :: rest)
termination_by ((keysFinset s \ used').card, values.length + 1)
decreasing_by
  all_goals exact Prod.Lex.right _ (by simp only [List.length_cons]; omega)

end

/-- The mutable state of a `DecisionTree` object: the fields set by
`__init__` and overwritten by `load_data`. -/
structure TreeState where
  tree_root : Option DTNode
  data : List (List String)
  attributes : List (List String)
  decisions : List String
  unique_attributes_values : List (ℕ × ℕ)
  value_occurrences : List (ℕ × List (String × ℕ))
  decision_counts : List (String × ℕ)
  attribute_decision_counts : List (ℕ × List (String × List (String × ℕ)))

/-- `DecisionTree.__init__`. -/
def initState : TreeState :=
  { tree_root := none
    data := []
    attributes := []
    decisions := []
    unique_attributes_values := []
    value_occurrences := []
    decision_counts := []
    attribute_decision_counts := [] }

/-- `load_data`, applied to the already-parsed rows of the file.  It first
assigns `data`, `attributes` and `decisions`, then runs the statistics passes
and the tree build.  `_count_unique_attributes_values` evaluates
`self.attributes[0]`, which raises `IndexError` when zero rows were loaded;
`Except.error` carries the object state at that raise (statistics tables and
`tree_root` still holding their previous values). -/
noncomputable def load_data (st : TreeState) (data : List (List String)) :
    Except TreeState TreeState :=
  let st1 := { st with
    data := data
    attributes := attributesOf data
    decisions := decisionsOf data }
  match st1.attributes with
  | [] => Except.error st1
  | _ :: _ =>
      let s := mkStats data
      let st2 := { st1 with
        unique_attributes_values := s.unique_attributes_values
        value_occurrences := s.value_occurrences
        decision_counts := s.decision_counts
        attribute_decision_counts := s.attribute_decision_counts }
      Except.ok { st2 with
        tree_root := build_tree s (List.range st2.decisions.length) ∅ }

mutual

/-- The leaf labels of a tree, in traversal order. -/
def leafLabels : DTNode → List String
  | DTNode.decision d => [d]
  | DTNode.attr _ cs => leafLabelsL cs

/-- Leaf labels of a child list. -/
def leafLabelsL : List (String × DTNode) → List String
  | [] => []
  | c :: cs => leafLabels c.2 ++ leafLabelsL cs

end

mutual

/-- Every attribute node of a tree, as (tested index, branch-value list). -/
def attrNodes : DTNode → List (ℕ × List String)
  | DTNode.decision _ => []
  | DTNode.attr i cs => (i, cs.map Prod.fst) :: attrNodesL cs

/-- Attribute nodes of a child list. -/
def attrNodesL : List (String × DTNode) → List (ℕ × List String)
  | [] => []
  | c :: cs => attrNodes c.2 ++ attrNodesL cs

end

mutual

/-- The root-to-leaf paths of a tree, each as the list of attribute indices
tested along the path (one entry per attribute node, in root-to-leaf order). -/
def pathsOf : DTNode → List (List ℕ)
  | DTNode.decision _ => [[]]
  | DTNode.attr i cs => (pathsOfL cs).map (fun p => i :: p)

/-- Root-to-leaf paths of a child list. -/
def pathsOfL : List (String × DTNode) → List (List ℕ)
  | [] => []
  | c :: cs => pathsOf c.2 ++ pathsOfL cs

end

/-- `Builds s dataIndices used t` characterizes a completed run of
`_build_tree(dataIndices, used)` returning `t`.  Its three constructors mirror
the three return paths of the source; in the `split` constructor, `hrec`
states that recursion happens exactly at the non-empty branch subsets (so no
recursive call ever receives an empty `dataIndices`), and `hempty` states that
an empty branch subset is turned into a leaf labelled with the majority label
of the current (parent) subset's decisions. -/
inductive Builds (s : Stats) : List ℕ → Finset ℕ → DTNode → Prop where
  | pureLeaf (dataIndices : List ℕ) (used : Finset ℕ)
      (hpure :
        (uniqueInOrder (dataIndices.map (fun i => s.decisions.getD i ""))).length = 1) :
      Builds s dataIndices used
        (DTNode.decision ((dataIndices.map (fun i => s.decisions.getD i "")).headD ""))
  | exhausted (dataIndices : List ℕ) (used : Finset ℕ) (m : String)
      (hnotpure :
        (uniqueInOrder (dataIndices.map (fun i => s.decisions.getD i ""))).length ≠ 1)
      (hsel : (selectAttr s used).1 = none)
      (hmaj : majorityLabel (dataIndices.map (fun i => s.decisions.getD i "")) = some m) :
      Builds s dataIndices used (DTNode.decision m)
  | split (dataIndices : List ℕ) (used : Finset ℕ) (a : ℕ)
      (children : List (String × DTNode))
      (hnotpure :
        (uniqueInOrder (dataIndices.map (fun i => s.decisions.getD i ""))).length ≠ 1)
      (hsel : (selectAttr s used).1 = some a)
      (hlen : children.length = (valueKeys s a).length)
      (hvals : ∀ k (hk : k < children.length),
        (children.get ⟨k, hk⟩).1 = (valueKeys s a).getD k "")
      (hempty : ∀ k (hk : k < children.length),
        subsetAt s dataIndices a ((valueKeys s a).getD k "") = [] →
        ∃ m, majorityLabel (dataIndices.map (fun i => s.decisions.getD i "")) = some m ∧
          (children.get ⟨k, hk⟩).2 = DTNode.decision m)
      (hrec : ∀ k (hk : k < children.length),
        subsetAt s dataIndices a ((valueKeys s a).getD k "") ≠ [] →
        Builds s (subsetAt s dataIndices a ((valueKeys s a).getD k ""))
          (insert a used) (children.get ⟨k, hk⟩).2) :
      Builds s dataIndices used (DTNode.attr a children)

theorem mem_dedupFirst (x : String) :
    ∀ (l seen : List String), x ∈ dedupFirst seen l ↔ x ∈ l ∧ x ∉ seen := by
  intro l
  induction l with
  | nil => intro seen; simp [dedupFirst]
  | cons y ys ih =>
      intro seen
      rw [dedupFirst]
      by_cases hy : y ∈ seen
      · rw [if_pos hy, ih]
        constructor
        · exact fun h => ⟨List.mem_cons_of_mem _ h.1, h.2⟩
        · rintro ⟨h1, h2⟩
          rcases List.mem_cons.mp h1 with rfl | h1
          · exact absurd hy h2
          · exact ⟨h1, h2⟩
      · rw [if_neg hy]
        simp only [List.mem_cons, ih, List.mem_cons]
        constructor
        · rintro (rfl | ⟨h1, h2⟩)
          · exact ⟨Or.inl rfl, hy⟩
          · exact ⟨Or.inr h1, fun hs => h2 (Or.inr hs)⟩
        · rintro ⟨(rfl | h1), h2⟩
          · exact Or.inl rfl
          · by_cases hxy : x = y
            · exact Or.inl hxy
            · refine Or.inr ⟨h1, ?_⟩
              rintro (h | h)
              · exact hxy h
              · exact h2 h

theorem mem_uniqueInOrder (x : String) (l : List String) :
    x ∈ uniqueInOrder l ↔ x ∈ l := by
  rw [uniqueInOrder, mem_dedupFirst]; simp

theorem uniqueInOrder_eq_nil (l : List String) :
    uniqueInOrder l = [] ↔ l = [] := by
  constructor
  · intro h
    cases l with
    | nil => rfl
    | cons x xs =>
        exfalso
        have hx : x ∈ uniqueInOrder (x :: xs) :=
          (mem_uniqueInOrder _ _).mpr (by simp)
        rw [h] at hx
        simp at hx
  · rintro rfl; rfl

theorem foldl_max_mem (decisions : List String) :
    ∀ (xs : List String) (x : String),
      xs.foldl
        (fun best l => if decisions.count l > decisions.count best then l else best)
        x ∈ x :: xs := by
  intro xs
  induction xs with
  | nil => simp
  | cons y ys ih =>
      intro x
      rw [List.foldl_cons]
      by_cases h : decisions.count y > decisions.count x
      · rw [if_pos h]
        rcases List.mem_cons.mp (ih y) with h1 | h1
        · simp [h1]
        · simp [List.mem_cons, h1]
      · rw [if_neg h]
        rcases List.mem_cons.mp (ih x) with h1 | h1
        · simp [h1]
        · simp [List.mem_cons, h1]

/-- On a non-empty label list, the majority computation returns a label that
occurs in the list (no `ValueError`). -/
theorem majorityLabel_spec (decisions : List String) (h : decisions ≠ []) :
    ∃ m, majorityLabel decisions = some m ∧ m ∈ decisions := by
  cases hu : uniqueInOrder decisions with
  | nil => exact absurd ((uniqueInOrder_eq_nil _).mp hu) h
  | cons x xs =>
      have heq : majorityLabel decisions =
          some (xs.foldl
            (fun best l =>
              if decisions.count l > decisions.count best then l else best) x) := by
        simp only [majorityLabel, hu]
      refine ⟨_, heq, ?_⟩
      have hm := foldl_max_mem decisions xs x
      rw [← hu] at hm
      exact (mem_uniqueInOrder _ _).mp hm

/-- The total count stored in a modelled dict. -/
def valsSum {κ : Type} (m : List (κ × ℕ)) : ℕ := (m.map Prod.snd).sum

theorem valsSum_bump (m : List (String × ℕ)) (k : String) :
    valsSum (bump m k) = valsSum m + 1 := by
  induction m with
  | nil => simp [bump, valsSum]
  | cons c rest ih =>
      obtain ⟨k', v⟩ := c
      rw [bump]
      by_cases h : k' = k
      · rw [if_pos h]
        simp only [valsSum, List.map_cons, List.sum_cons] at *
        omega
      · rw [if_neg h]
        simp only [valsSum, List.map_cons, List.sum_cons] at ih ⊢
        omega

theorem valsSum_foldl_bump :
    ∀ (l : List String) (m : List (String × ℕ)),
      valsSum (l.foldl bump m) = valsSum m + l.length := by
  intro l
  induction l with
  | nil => simp
  | cons x xs ih =>
      intro m
      rw [List.foldl_cons, ih, valsSum_bump, List.length_cons]
      omega

theorem dictKeys_bump_mem (m : List (String × ℕ)) (k : String)
    (h : k ∈ dictKeys m) : dictKeys (bump m k) = dictKeys m := by
  induction m with
  | nil => simp [dictKeys] at h
  | cons c rest ih =>
      obtain ⟨k', v⟩ := c
      rw [bump]
      by_cases hk : k' = k
      · rw [if_pos hk]; simp [dictKeys]
      · rw [if_neg hk]
        simp only [dictKeys, List.map_cons, List.cons.injEq, true_and]
        apply ih
        simp only [dictKeys, List.map_cons, List.mem_cons] at h
        rcases h with h | h
        · exact absurd h.symm hk
        · exact h

theorem dictKeys_bump_not_mem (m : List (String × ℕ)) (k : String)
    (h : k ∉ dictKeys m) : dictKeys (bump m k) = dictKeys m ++ [k] := by
  induction m with
  | nil => simp [bump, dictKeys]
  | cons c rest ih =>
      obtain ⟨k', v⟩ := c
      rw [bump]
      by_cases hk : k' = k
      · exfalso; apply h; simp [dictKeys, hk]
      · rw [if_neg hk]
        simp only [dictKeys, List.map_cons, List.cons_append, List.cons.injEq,
          true_and]
        apply ih
        intro hc
        exact h (by simp [dictKeys, List.mem_cons]; right; simpa [dictKeys] using hc)

theorem dictKeys_foldl_bump :
    ∀ (l : List String) (m : List (String × ℕ)) (seen : List String),
      (∀ x, x ∈ seen ↔ x ∈ dictKeys m) →
      dictKeys (l.foldl bump m) = dictKeys m ++ dedupFirst seen l := by
  intro l
  induction l with
  | nil => intro m seen _; simp [dedupFirst]
  | cons x xs ih =>
      intro m seen hseen
      rw [List.foldl_cons, dedupFirst]
      by_cases hx : x ∈ seen
      · rw [if_pos hx]
        have hkeys := dictKeys_bump_mem m x ((hseen x).mp hx)
        rw [ih (bump m x) seen (fun y => by rw [hkeys]; exact hseen y), hkeys]
      · rw [if_neg hx]
        have hkeys := dictKeys_bump_not_mem m x (fun hc => hx ((hseen x).mpr hc))
        rw [ih (bump m x) (x :: seen) ?_, hkeys]
        · simp
        · intro y
          rw [hkeys]
          simp only [List.mem_cons, List.mem_append, List.mem_singleton, hseen y]
          tauto

theorem dictKeys_foldl_bump_nil (l : List String) :
    dictKeys (l.foldl bump []) = uniqueInOrder l := by
  have h := dictKeys_foldl_bump l [] [] (by simp [dictKeys])
  simpa [uniqueInOrder, dictKeys] using h

theorem dictGet_map_self {α : Type} (F : ℕ → α) :
    ∀ (l : List ℕ) (i : ℕ),
      (i ∈ l → dictGet (l.map (fun j => (j, F j))) i = some (F i)) ∧
      (i ∉ l → dictGet (l.map (fun j => (j, F j))) i = none) := by
  intro l
  induction l with
  | nil => intro i; simp [dictGet]
  | cons x xs ih =>
      intro i
      constructor
      · intro hi
        rw [List.map_cons, dictGet]
        by_cases h : x = i
        · rw [if_pos h]; subst h; rfl
        · rw [if_neg h]
          refine (ih i).1 ?_
          rcases List.mem_cons.mp hi with rfl | h1
          · exact absurd rfl h
          · exact h1
      · intro hi
        rw [List.map_cons, dictGet,
          if_neg (fun hc => hi (by rw [← hc]; exact List.mem_cons_self x xs))]
        exact (ih i).2 (fun hc => hi (List.mem_cons_of_mem _ hc))

theorem dictGet_value_occurrences (attrs : List (List String)) (i : ℕ)
    (h : i < numAttrsOf attrs) :
    dictGet (count_value_occurrences attrs) i =
      some ((columnOf attrs i).foldl bump []) :=
  (dictGet_map_self _ _ i).1 (List.mem_range.mpr h)

theorem dictGet_value_occurrences_none (attrs : List (List String)) (i : ℕ)
    (h : ¬ i < numAttrsOf attrs) :
    dictGet (count_value_occurrences attrs) i = none :=
  (dictGet_map_self _ _ i).2 (fun hc => h (List.mem_range.mp hc))

theorem dictGet_attribute_decision_counts (attrs : List (List String))
    (decisions : List String) (i : ℕ) (h : i < numAttrsOf attrs) :
    dictGet (calculate_attribute_decision_counts attrs decisions) i =
      some (((columnOf attrs i).zip decisions).foldl
        (fun m p => bumpNested m p.1 p.2) []) :=
  (dictGet_map_self _ _ i).1 (List.mem_range.mpr h)

theorem foldl_bump_const (v : String) :
    ∀ (l : List String) (k : ℕ), (∀ x ∈ l, x = v) →
      l.foldl bump [(v, k)] = [(v, k + l.length)] := by
  intro l
  induction l with
  | nil => simp
  | cons x xs ih =>
      intro k hall
      have hx : x = v := hall x (by simp)
      subst hx
      rw [List.foldl_cons, show bump [(x, k)] x = [(x, k + 1)] by simp [bump],
        ih (k + 1) (fun y hy => hall y (by simp [hy]))]
      have harith : k + 1 + xs.length = k + (x :: xs).length := by
        simp only [List.length_cons]; omega
      rw [harith]

theorem foldl_bump_const_of_unique (l : List String) (v : String)
    (h : uniqueInOrder l = [v]) : l.foldl bump [] = [(v, l.length)] := by
  have hall : ∀ x ∈ l, x = v := by
    intro x hx
    have := (mem_uniqueInOrder x l).mpr hx
    rw [h] at this
    simpa using this
  have hne : l ≠ [] := by
    intro hc
    rw [hc] at h
    simp [uniqueInOrder, dedupFirst] at h
  cases l with
  | nil => exact absurd rfl hne
  | cons x xs =>
      have hx : x = v := hall x (by simp)
      subst hx
      rw [List.foldl_cons, show bump [] x = [(x, 1)] from rfl,
        foldl_bump_const x xs 1 (fun y hy => hall y (by simp [hy]))]
      have harith : 1 + xs.length = (x :: xs).length := by
        simp only [List.length_cons]; omega
      rw [harith]

theorem sel_fold_filter (used : Finset ℕ) (f : ℕ → ℝ) :
    ∀ (l : List ℕ) (acc : Option ℕ × ℝ),
      l.foldl (fun acc x => if x ∉ used ∧ f x > acc.2 then (some x, f x) else acc)
          acc
      = (l.filter (fun x => x ∉ used)).foldl
          (fun acc x => if f x > acc.2 then (some x, f x) else acc) acc := by
  intro l
  induction l with
  | nil => intro acc; simp
  | cons x xs ih =>
      intro acc
      rw [List.foldl_cons]
      by_cases hx : x ∉ used
      · rw [List.filter_cons_of_pos (by simpa using hx), List.foldl_cons]
        by_cases hg : f x > acc.2
        · rw [if_pos ⟨hx, hg⟩, if_pos hg, ih]
        · rw [if_neg (fun hc => hg hc.2), if_neg hg, ih]
      · rw [List.filter_cons_of_neg (by simpa using hx),
          if_neg (fun hc => hx hc.1), ih]

theorem sel_fold_spec (f : ℕ → ℝ) :
    ∀ (l : List ℕ) (acc : Option ℕ × ℝ),
      (l.foldl (fun acc x => if f x > acc.2 then (some x, f x) else acc) acc = acc
        ∧ ∀ x ∈ l, f x ≤ acc.2) ∨
      (∃ a l₁ l₂, l = l₁ ++ a :: l₂ ∧
        l.foldl (fun acc x => if f x > acc.2 then (some x, f x) else acc) acc
          = (some a, f a) ∧
        acc.2 < f a ∧ (∀ x ∈ l₁, f x < f a) ∧ (∀ x ∈ l₂, f x ≤ f a)) := by
  intro l
  induction l with
  | nil => intro acc; left; simp
  | cons x xs ih =>
      intro acc
      rw [List.foldl_cons]
      by_cases hx : f x > acc.2
      · rw [if_pos hx]
        rcases ih (some x, f x) with ⟨heq, hle⟩ |
          ⟨a, l₁, l₂, hsplit, heq, hgt, hbef, haft⟩
        · right
          exact ⟨x, [], xs, by simp, heq, hx, by simp, fun y hy => hle y hy⟩
        · right
          refine ⟨a, x :: l₁, l₂, by simp [hsplit], heq, lt_trans hx hgt, ?_, haft⟩
          intro y hy
          rcases List.mem_cons.mp hy with rfl | hy
          · exact hgt
          · exact hbef y hy
      · rw [if_neg hx]
        rcases ih acc with ⟨heq, hle⟩ |
          ⟨a, l₁, l₂, hsplit, heq, hgt, hbef, haft⟩
        · left
          refine ⟨heq, ?_⟩
          intro y hy
          rcases List.mem_cons.mp hy with rfl | hy
          · exact le_of_not_lt hx
          · exact hle y hy
        · right
          refine ⟨a, x :: l₁, l₂, by simp [hsplit], heq, hgt, ?_, haft⟩
          intro y hy
          rcases List.mem_cons.mp hy with rfl | hy
          · exact lt_of_le_of_lt (le_of_not_lt hx) hgt
          · exact hbef y hy

/-- The candidate attributes the selection loop considers: the unused keys of
`unique_attributes_values`, in iteration order. -/
def candidates (s : Stats) (used : Finset ℕ) : List ℕ :=
  (s.unique_attributes_values.map Prod.fst).filter (fun x => x ∉ used)

theorem selectAttr_spec (s : Stats) (used : Finset ℕ) (a : ℕ)
    (h : (selectAttr s used).1 = some a) :
    a ∈ candidates s used ∧ -1 < calculate_gain_ratio s a ∧
      (∀ b ∈ candidates s used,
        calculate_gain_ratio s b ≤ calculate_gain_ratio s a) ∧
      ∃ l₁ l₂, candidates s used = l₁ ++ a :: l₂ ∧
        ∀ b ∈ l₁, calculate_gain_ratio s b < calculate_gain_ratio s a := by
  rw [selectAttr, sel_fold_filter] at h
  rcases sel_fold_spec (calculate_gain_ratio s)
      ((s.unique_attributes_values.map Prod.fst).filter (fun x => x ∉ used))
      (none, -1) with ⟨heq, _⟩ | ⟨a', l₁, l₂, hsplit, heq, hgt, hbef, haft⟩
  · rw [heq] at h; simp at h
  · rw [heq] at h
    obtain rfl : a' = a := by simpa using h
    refine ⟨by rw [candidates, hsplit]; simp, hgt, ?_,
      l₁, l₂, by rw [candidates]; exact hsplit, hbef⟩
    intro b hb
    rw [candidates, hsplit] at hb
    rcases List.mem_append.mp hb with hb | hb
    · exact le_of_lt (hbef b hb)
    · rcases List.mem_cons.mp hb with rfl | hb
      · exact le_refl _
      · exact haft b hb

/-- The attribute selected at recursion depth `k` below a call with used set
`used` — a function of the used set alone, because the gain ratios the builder
consults are global. -/
noncomputable def nthSel (s : Stats) : Finset ℕ → ℕ → Option ℕ
  | used, 0 => (selectAttr s used).1
  | used, k + 1 =>
      match (selectAttr s used).1 with
      | none => none
      | some a => nthSel s (insert a used) k

theorem sel_pair (s : Stats)
    (hkeys : (s.unique_attributes_values.map Prod.fst).Pairwise (· < ·))
    (used : Finset ℕ) (a b : ℕ)
    (ha : (selectAttr s used).1 = some a)
    (hb : (selectAttr s (insert a used)).1 = some b) :
    calculate_gain_ratio s b < calculate_gain_ratio s a ∨
      (calculate_gain_ratio s b = calculate_gain_ratio s a ∧ a < b) := by
  obtain ⟨hamem, _, hamax, l₁, l₂, hsplit, hbef⟩ := selectAttr_spec s used a ha
  obtain ⟨hbmem, _, _, _⟩ := selectAttr_spec s (insert a used) b hb
  have hbc : b ∈ candidates s used ∧ b ≠ a := by
    rw [candidates, List.mem_filter] at hbmem
    have hbu : b ∉ insert a used := by simpa using hbmem.2
    rw [Finset.mem_insert, not_or] at hbu
    rw [candidates, List.mem_filter]
    exact ⟨⟨hbmem.1, by simpa using hbu.2⟩, hbu.1⟩
  rcases lt_or_eq_of_le (hamax b hbc.1) with hlt | heq2
  · exact Or.inl hlt
  · right
    refine ⟨heq2, ?_⟩
    have hbl2 : b ∈ l₂ := by
      have hmem := hbc.1
      rw [hsplit] at hmem
      rcases List.mem_append.mp hmem with h1 | h1
      · exact absurd (hbef b h1) (by simp [heq2])
      · rcases List.mem_cons.mp h1 with rfl | h1
        · exact absurd rfl hbc.2
        · exact h1
    have hs : (candidates s used).Pairwise (· < ·) :=
      List.Pairwise.sublist (List.filter_sublist _) hkeys
    rw [hsplit] at hs
    have h2 := (List.pairwise_append.mp hs).2.1
    exact (List.pairwise_cons.mp h2).1 b hbl2

theorem nthSel_pair (s : Stats)
    (hkeys : (s.unique_attributes_values.map Prod.fst).Pairwise (· < ·)) :
    ∀ (k : ℕ) (used : Finset ℕ) (a b : ℕ),
      nthSel s used k = some a → nthSel s used (k + 1) = some b →
      calculate_gain_ratio s b < calculate_gain_ratio s a ∨
        (calculate_gain_ratio s b = calculate_gain_ratio s a ∧ a < b) := by
  intro k
  induction k with
  | zero =>
      intro used a b h0 h1
      simp only [nthSel] at h0 h1
      rw [h0] at h1
      exact sel_pair s hkeys used a b h0 h1
  | succ k ih =>
      intro used a b h0 h1
      simp only [nthSel] at h0 h1
      cases hc : (selectAttr s used).1 with
      | none => rw [hc] at h0; simp at h0
      | some c =>
          rw [hc] at h0 h1
          exact ih (insert c used) a b h0 h1

theorem build_children_sound (s : Stats) (dataIndices : List ℕ)
    (decs : List String) (used' : Finset ℕ) (bestAttr : ℕ)
    (hIH : ∀ subset t, build_tree s subset used' = some t →
      Builds s subset used' t) :
    ∀ (values : List String) (children : List (String × DTNode)),
      build_children s dataIndices decs used' bestAttr values = some children →
      children.length = values.length ∧
      (∀ k (hk : k < children.length),
        (children.get ⟨k, hk⟩).1 = values.getD k "") ∧
      (∀ k (hk : k < children.length),
        subsetAt s dataIndices bestAttr (values.getD k "") = [] →
        ∃ m, majorityLabel decs = some m ∧
          (children.get ⟨k, hk⟩).2 = DTNode.decision m) ∧
      (∀ k (hk : k < children.length),
        subsetAt s dataIndices bestAttr (values.getD k "") ≠ [] →
        Builds s (subsetAt s dataIndices bestAttr (values.getD k "")) used'
          (children.get ⟨k, hk⟩).2) := by
  intro values
  induction values with
  | nil =>
      intro children h
      rw [build_children] at h
      obtain rfl : ([] : List (String × DTNode)) = children := by simpa using h
      refine ⟨rfl, ?_, ?_, ?_⟩ <;> intro k hk <;> simp at hk
  | cons v vs ih =>
      intro children h
      rw [build_children] at h
      split at h
      · rename_i hsub
        split at h
        · exact absurd h (by simp)
        · rename_i m hm
          split at h
          · exact absurd h (by simp)
          · rename_i rest hrest
            obtain rfl : (v, DTNode.decision m) :: rest = children := by
              simpa using h
            obtain ⟨ihlen, ihvals, ihempty, ihrec⟩ := ih rest hrest
            refine ⟨by simp [ihlen], ?_, ?_, ?_⟩
            · intro k hk
              cases k with
              | zero => simp
              | succ k =>
                  simp only [List.get_cons_succ, List.getD_cons_succ]
                  exact ihvals k (by simpa using hk)
            · intro k hk hke
              cases k with
              | zero => exact ⟨m, hm, by simp⟩
              | succ k =>
                  simp only [List.getD_cons_succ] at hke ⊢
                  simp only [List.get_cons_succ]
                  exact ihempty k (by simpa using hk) hke
            · intro k hk hkne
              cases k with
              | zero =>
                  simp only [List.getD_cons_zero] at hkne
                  exact absurd hsub hkne
              | succ k =>
                  simp only [List.getD_cons_succ] at hkne ⊢
                  simp only [List.get_cons_succ]
                  exact ihrec k (by simpa using hk) hkne
      · rename_i hsub
        split at h
        · exact absurd h (by simp)
        · rename_i child hchild
          split at h
          · exact absurd h (by simp)
          · rename_i rest hrest
            obtain rfl : (v, child) :: rest = children := by simpa using h
            obtain ⟨ihlen, ihvals, ihempty, ihrec⟩ := ih rest hrest
            refine ⟨by simp [ihlen], ?_, ?_, ?_⟩
            · intro k hk
              cases k with
              | zero => simp
              | succ k =>
                  simp only [List.get_cons_succ, List.getD_cons_succ]
                  exact ihvals k (by simpa using hk)
            · intro k hk hke
              cases k with
              | zero =>
                  simp only [List.getD_cons_zero] at hke
                  exact absurd hke hsub
              | succ k =>
                  simp only [List.getD_cons_succ] at hke ⊢
                  simp only [List.get_cons_succ]
                  exact ihempty k (by simpa using hk) hke
            · intro k hk hkne
              cases k with
              | zero =>
                  simp only [List.getD_cons_zero, List.get]
                  exact hIH _ child hchild
              | succ k =>
                  simp only [List.getD_cons_succ] at hkne ⊢
                  simp only [List.get_cons_succ]
                  exact ihrec k (by simpa using hk) hkne

theorem build_tree_sound_aux (s : Stats) :
    ∀ (N : ℕ) (dataIndices : List ℕ) (used : Finset ℕ) (t : DTNode),
      (keysFinset s \ used).card ≤ N →
      build_tree s dataIndices used = some t →
      Builds s dataIndices used t := by
  intro N
  induction N with
  | zero =>
      intro idx used t hcard h
      rw [build_tree] at h
      split at h
      · rename_i hpure
        rw [Option.some_inj] at h
        subst h
        exact Builds.pureLeaf idx used hpure
      · rename_i hpure
        split at h
        · rename_i hsel
          split at h
          · exact absurd h (by simp)
          · rename_i m hm
            rw [Option.some_inj] at h
            subst h
            exact Builds.exhausted idx used m hpure hsel hm
        · rename_i bestAttr hsel
          have hlt := keysFinset_measure s used bestAttr hsel
          omega
  | succ N ih =>
      intro idx used t hcard h
      rw [build_tree] at h
      split at h
      · rename_i hpure
        rw [Option.some_inj] at h
        subst h
        exact Builds.pureLeaf idx used hpure
      · rename_i hpure
        split at h
        · rename_i hsel
          split at h
          · exact absurd h (by simp)
          · rename_i m hm
            rw [Option.some_inj] at h
            subst h
            exact Builds.exhausted idx used m hpure hsel hm
        · rename_i bestAttr hsel
          split at h
          · exact absurd h (by simp)
          · rename_i children hch
            rw [Option.some_inj] at h
            subst h
            have hcard' : (keysFinset s \ insert bestAttr used).card ≤ N := by
              have hlt := keysFinset_measure s used bestAttr hsel
              omega
            have hIH : ∀ subset t',
                build_tree s subset (insert bestAttr used) = some t' →
                Builds s subset (insert bestAttr used) t' :=
              fun subset t' ht' => ih subset (insert bestAttr used) t' hcard' ht'
            obtain ⟨hlen, hvals, hempty, hrec⟩ :=
              build_children_sound s idx _ (insert bestAttr used) bestAttr hIH
                (valueKeys s bestAttr) children hch
            exact Builds.split idx used bestAttr children hpure hsel hlen hvals
              hempty hrec

/-- A successful run of `_build_tree` is characterized by `Builds`. -/
theorem build_tree_sound (s : Stats) (dataIndices : List ℕ) (used : Finset ℕ)
    (t : DTNode) (h : build_tree s dataIndices used = some t) :
    Builds s dataIndices used t :=
  build_tree_sound_aux s (keysFinset s \ used).card dataIndices used t le_rfl h

theorem build_children_ne_none (s : Stats) (dataIndices : List ℕ)
    (decs : List String) (used' : Finset ℕ) (bestAttr : ℕ)
    (hdecs : decs ≠ [])
    (hIH : ∀ subset, subset ≠ [] → build_tree s subset used' ≠ none) :
    ∀ values : List String,
      build_children s dataIndices decs used' bestAttr values ≠ none := by
  intro values
  induction values with
  | nil => intro h; rw [build_children] at h; simp at h
  | cons v vs ih =>
      intro h
      rw [build_children] at h
      split at h
      · split at h
        · rename_i hm
          obtain ⟨m, hm', _⟩ := majorityLabel_spec decs hdecs
          rw [hm'] at hm
          simp at hm
        · split at h
          · rename_i hrest
            exact ih hrest
          · simp at h
      · rename_i hsub
        split at h
        · rename_i hchild
          exact hIH _ hsub hchild
        · split at h
          · rename_i hrest
            exact ih hrest
          · simp at h

theorem build_tree_ne_none_aux (s : Stats) :
    ∀ (N : ℕ) (dataIndices : List ℕ) (used : Finset ℕ),
      (keysFinset s \ used).card ≤ N → dataIndices ≠ [] →
      build_tree s dataIndices used ≠ none := by
  intro N
  induction N with
  | zero =>
      intro idx used hcard hne h
      rw [build_tree] at h
      split at h
      · simp at h
      · split at h
        · split at h
          · rename_i hm
            obtain ⟨m, hm', _⟩ := majorityLabel_spec
              (idx.map (fun i => s.decisions.getD i "")) (by simpa using hne)
            rw [hm'] at hm
            simp at hm
          · simp at h
        · rename_i bestAttr hsel
          have hlt := keysFinset_measure s used bestAttr hsel
          omega
  | succ N ih =>
      intro idx used hcard hne h
      rw [build_tree] at h
      split at h
      · simp at h
      · split at h
        · split at h
          · rename_i hm
            obtain ⟨m, hm', _⟩ := majorityLabel_spec
              (idx.map (fun i => s.decisions.getD i "")) (by simpa using hne)
            rw [hm'] at hm
            simp at hm
          · simp at h
        · rename_i bestAttr hsel
          split at h
          · rename_i hch
            have hcard' : (keysFinset s \ insert bestAttr used).card ≤ N := by
              have hlt := keysFinset_measure s used bestAttr hsel
              omega
            refine build_children_ne_none s idx _ (insert bestAttr used) bestAttr
              (by simpa using hne)
              (fun subset hs => ih subset (insert bestAttr used) hcard' hs)
              (valueKeys s bestAttr) hch
          · simp at h

/-- On a non-empty row-index list, `_build_tree` never raises. -/
theorem build_tree_ne_none (s : Stats) (dataIndices : List ℕ) (used : Finset ℕ)
    (hne : dataIndices ≠ []) : build_tree s dataIndices used ≠ none :=
  build_tree_ne_none_aux s (keysFinset s \ used).card dataIndices used le_rfl hne

theorem mem_leafLabelsL (l : String) :
    ∀ cs : List (String × DTNode), l ∈ leafLabelsL cs →
      ∃ k, ∃ hk : k < cs.length, l ∈ leafLabels (cs.get ⟨k, hk⟩).2 := by
  intro cs
  induction cs with
  | nil => intro h; simp [leafLabelsL] at h
  | cons c cs ih =>
      intro h
      rw [leafLabelsL] at h
      rcases List.mem_append.mp h with h | h
      · exact ⟨0, by simp, h⟩
      · obtain ⟨k, hk, hmem⟩ := ih h
        exact ⟨k + 1, by simpa using hk, by simpa using hmem⟩

theorem mem_pathsOfL (p : List ℕ) :
    ∀ cs : List (String × DTNode), p ∈ pathsOfL cs →
      ∃ k, ∃ hk : k < cs.length, p ∈ pathsOf (cs.get ⟨k, hk⟩).2 := by
  intro cs
  induction cs with
  | nil => intro h; simp [pathsOfL] at h
  | cons c cs ih =>
      intro h
      rw [pathsOfL] at h
      rcases List.mem_append.mp h with h | h
      · exact ⟨0, by simp, h⟩
      · obtain ⟨k, hk, hmem⟩ := ih h
        exact ⟨k + 1, by simpa using hk, by simpa using hmem⟩

theorem mem_attrNodesL (pr : ℕ × List String) :
    ∀ cs : List (String × DTNode), pr ∈ attrNodesL cs →
      ∃ k, ∃ hk : k < cs.length, pr ∈ attrNodes (cs.get ⟨k, hk⟩).2 := by
  intro cs
  induction cs with
  | nil => intro h; simp [attrNodesL] at h
  | cons c cs ih =>
      intro h
      rw [attrNodesL] at h
      rcases List.mem_append.mp h with h | h
      · exact ⟨0, by simp, h⟩
      · obtain ⟨k, hk, hmem⟩ := ih h
        exact ⟨k + 1, by simpa using hk, by simpa using hmem⟩

theorem majorityLabel_mem (decs : List String) (m : String)
    (h : majorityLabel decs = some m) : m ∈ decs := by
  have hne : decs ≠ [] := by
    intro hc
    subst hc
    simp [majorityLabel, uniqueInOrder, dedupFirst] at h
  obtain ⟨m', hm', hmem⟩ := majorityLabel_spec decs hne
  rw [hm'] at h
  obtain rfl : m' = m := by simpa using h
  exact hmem

theorem mapped_decisions_mem (s : Stats) (idx : List ℕ)
    (hvalid : ∀ i ∈ idx, i < s.decisions.length) :
    ∀ x ∈ idx.map (fun i => s.decisions.getD i ""), x ∈ s.decisions := by
  intro x hx
  obtain ⟨i, hi, rfl⟩ := List.mem_map.mp hx
  rw [List.getD_eq_get _ _ (hvalid i hi)]
  exact List.get_mem _ _ _

theorem subsetAt_subset (s : Stats) (idx : List ℕ) (a : ℕ) (v : String) :
    ∀ i ∈ subsetAt s idx a v, i ∈ idx := by
  intro i hi
  exact (List.mem_filter.mp hi).1

/-- Every leaf of a built tree carries a label read from `s.decisions` at a
valid index. -/
theorem builds_leafLabels (s : Stats) (idx : List ℕ) (used : Finset ℕ)
    (t : DTNode) (hb : Builds s idx used t) :
    (∀ i ∈ idx, i < s.decisions.length) →
    ∀ l ∈ leafLabels t, l ∈ s.decisions := by
  induction hb with
  | pureLeaf idx used hpure =>
      intro hvalid l hl
      rw [leafLabels] at hl
      obtain rfl : l = (idx.map (fun i => s.decisions.getD i "")).headD "" := by
        simpa using hl
      have hne : idx.map (fun i => s.decisions.getD i "") ≠ [] := by
        intro hc
        rw [hc] at hpure
        simp [uniqueInOrder, dedupFirst] at hpure
      apply mapped_decisions_mem s idx hvalid
      obtain ⟨x, xs, hmap⟩ := List.exists_cons_of_ne_nil hne
      rw [hmap]
      simp
  | exhausted idx used m hnotpure hsel hmaj =>
      intro hvalid l hl
      rw [leafLabels] at hl
      obtain rfl : l = m := by simpa using hl
      exact mapped_decisions_mem s idx hvalid _ (majorityLabel_mem _ _ hmaj)
  | split idx used a children hnotpure hsel hlen hvals hempty hrec ih =>
      intro hvalid l hl
      rw [leafLabels] at hl
      obtain ⟨k, hk, hmem⟩ := mem_leafLabelsL l children hl
      by_cases hsub : subsetAt s idx a ((valueKeys s a).getD k "") = []
      · obtain ⟨m, hm, hdec⟩ := hempty k hk hsub
        rw [hdec, leafLabels] at hmem
        obtain rfl : l = m := by simpa using hmem
        exact mapped_decisions_mem s idx hvalid _ (majorityLabel_mem _ _ hm)
      · refine ih k hk hsub ?_ l hmem
        intro i hi
        exact hvalid i (subsetAt_subset s idx a _ i hi)

/-- Along a built tree, every attribute node tests an unused key of the
statistics tables, and no path repeats an attribute. -/
theorem builds_paths_nodup (s : Stats) (idx : List ℕ) (used : Finset ℕ)
    (t : DTNode) (hb : Builds s idx used t) :
    ∀ p ∈ pathsOf t, p.Nodup ∧
      ∀ a ∈ p, a ∉ used ∧ a ∈ s.unique_attributes_values.map Prod.fst := by
  induction hb with
  | pureLeaf idx used hpure =>
      intro p hp
      rw [pathsOf] at hp
      obtain rfl : ([] : List ℕ) = p := by simpa using hp
      simp
  | exhausted idx used m hnotpure hsel hmaj =>
      intro p hp
      rw [pathsOf] at hp
      obtain rfl : ([] : List ℕ) = p := by simpa using hp
      simp
  | split idx used a children hnotpure hsel hlen hvals hempty hrec ih =>
      intro p hp
      rw [pathsOf] at hp
      obtain ⟨p', hp', rfl⟩ := List.mem_map.mp hp
      obtain ⟨hamem, hanot⟩ := selectAttr_mem s used a hsel
      obtain ⟨k, hk, hmem⟩ := mem_pathsOfL p' children hp'
      by_cases hsub : subsetAt s idx a ((valueKeys s a).getD k "") = []
      · obtain ⟨m, hm, hdec⟩ := hempty k hk hsub
        rw [hdec, pathsOf] at hmem
        obtain rfl : ([] : List ℕ) = p' := by simpa using hmem
        constructor
        · exact List.nodup_singleton a
        · intro b hbm
          obtain rfl : b = a := List.mem_singleton.mp hbm
          exact ⟨hanot, hamem⟩
      · obtain ⟨hnodup, hmems⟩ := ih k hk hsub p' hmem
        constructor
        · rw [List.nodup_cons]
          refine ⟨fun hc => ?_, hnodup⟩
          have := (hmems a hc).1
          simp at this
        · intro b hb
          rcases List.mem_cons.mp hb with rfl | hb
          · exact ⟨hanot, hamem⟩
          · obtain ⟨hbu, hbk⟩ := hmems b hb
            rw [Finset.mem_insert, not_or] at hbu
            exact ⟨hbu.2, hbk⟩

/-- Path entries of a built tree follow the canonical selection sequence
`nthSel`, which depends only on the used set. -/
theorem builds_path_nth (s : Stats) (idx : List ℕ) (used : Finset ℕ)
    (t : DTNode) (hb : Builds s idx used t) :
    ∀ p ∈ pathsOf t, ∀ k a, p.get? k = some a → nthSel s used k = some a := by
  induction hb with
  | pureLeaf idx used hpure =>
      intro p hp k a hk
      rw [pathsOf] at hp
      obtain rfl : ([] : List ℕ) = p := by simpa using hp
      simp at hk
  | exhausted idx used m hnotpure hsel hmaj =>
      intro p hp k a hk
      rw [pathsOf] at hp
      obtain rfl : ([] : List ℕ) = p := by simpa using hp
      simp at hk
  | split idx used a children hnotpure hsel hlen hvals hempty hrec ih =>
      intro p hp k b hkb
      rw [pathsOf] at hp
      obtain ⟨p', hp', rfl⟩ := List.mem_map.mp hp
      obtain ⟨j, hj, hmem⟩ := mem_pathsOfL p' children hp'
      cases k with
      | zero =>
          simp only [List.get?_cons_zero, Option.some_inj] at hkb
          subst hkb
          simp only [nthSel]
          exact hsel
      | succ k =>
          simp only [List.get?_cons_succ] at hkb
          by_cases hsub : subsetAt s idx a ((valueKeys s a).getD j "") = []
          · obtain ⟨m, hm, hdec⟩ := hempty j hj hsub
            rw [hdec, pathsOf] at hmem
            obtain rfl : ([] : List ℕ) = p' := by simpa using hmem
            simp at hkb
          · have := ih j hj hsub p' hmem k b hkb
            simp only [nthSel]
            rw [hsel]
            exact this

/-- Every attribute node of a built tree tests a table key, and its branch
values are exactly the keys of that attribute's global value-occurrence
table. -/
theorem builds_attrNodes (s : Stats) (idx : List ℕ) (used : Finset ℕ)
    (t : DTNode) (hb : Builds s idx used t) :
    ∀ pr ∈ attrNodes t,
      pr.1 ∈ s.unique_attributes_values.map Prod.fst ∧
      pr.2 = valueKeys s pr.1 := by
  induction hb with
  | pureLeaf idx used hpure => intro pr hpr; rw [attrNodes] at hpr; simp at hpr
  | exhausted idx used m hnotpure hsel hmaj =>
      intro pr hpr; rw [attrNodes] at hpr; simp at hpr
  | split idx used a children hnotpure hsel hlen hvals hempty hrec ih =>
      intro pr hpr
      rw [attrNodes] at hpr
      rcases List.mem_cons.mp hpr with rfl | hpr
      · refine ⟨(selectAttr_mem s used a hsel).1, ?_⟩
        apply List.ext_get
        · simpa using hlen
        · intro n h1 h2
          have hn : n < children.length := by simpa using h1
          have := hvals n hn
          rw [List.get_map]
          rw [List.getD_eq_get _ _ h2] at this
          exact this
      · obtain ⟨k, hk, hmem⟩ := mem_attrNodesL pr children hpr
        by_cases hsub : subsetAt s idx a ((valueKeys s a).getD k "") = []
        · obtain ⟨m, hm, hdec⟩ := hempty k hk hsub
          rw [hdec, attrNodes] at hmem
          simp at hmem
        · exact ih k hk hsub pr hmem

theorem logb_two_two : Real.logb 2 2 = 1 := Real.logb_self_eq_one (by norm_num)

theorem logb_two_inv : Real.logb 2 ((2 : ℝ)⁻¹) = -1 := by
  rw [Real.logb_inv, logb_two_two]

theorem logb_two_four : Real.logb 2 (4 : ℝ) = 2 := by
  rw [show (4 : ℝ) = 2 ^ (2 : ℕ) by norm_num, Real.logb_pow, logb_two_two]
  norm_num

theorem logb_two_quarter : Real.logb 2 ((4 : ℝ)⁻¹) = -2 := by
  rw [Real.logb_inv, logb_two_four]

theorem entropy_foldl_eq (T : ℝ) (l : List (String × ℕ)) :
    ∀ a : ℝ,
      l.foldl (fun e c =>
        if ((c.2 : ℝ) / T) > 0 then
          e - ((c.2 : ℝ) / T) * Real.logb 2 ((c.2 : ℝ) / T) else e) a
      = a - (l.map (fun c =>
          if ((c.2 : ℝ) / T) > 0 then
            ((c.2 : ℝ) / T) * Real.logb 2 ((c.2 : ℝ) / T) else 0)).sum := by
  induction l with
  | nil => intro a; simp
  | cons c cs ih =>
      intro a
      rw [List.foldl_cons, List.map_cons, List.sum_cons]
      by_cases h : ((c.2 : ℝ) / T) > 0
      · rw [if_pos h, if_pos h, ih]
        ring
      · rw [if_neg h, if_neg h, ih]
        ring

theorem entropy_single_eq_zero (x : String) (k : ℕ) (hk : k ≠ 0) :
    calculate_entropy_from_counts [(x, k)] = 0 := by
  simp only [calculate_entropy_from_counts, List.map_cons, List.map_nil,
    List.sum_cons, List.sum_nil, List.foldl_cons, List.foldl_nil, Nat.add_zero]
  rw [if_neg hk]
  have hT : ((k : ℝ)) / ((k : ℕ) : ℝ) = 1 := div_self (Nat.cast_ne_zero.mpr hk)
  rw [hT, if_pos one_pos, Real.logb_one]
  ring

theorem entropy_pair_eq_one (x y : String) (k : ℕ) (hk : k ≠ 0) :
    calculate_entropy_from_counts [(x, k), (y, k)] = 1 := by
  simp only [calculate_entropy_from_counts, List.map_cons, List.map_nil,
    List.sum_cons, List.sum_nil, List.foldl_cons, List.foldl_nil, Nat.add_zero]
  rw [if_neg (by omega : ¬ k + k = 0)]
  have hk' : (k : ℝ) ≠ 0 := Nat.cast_ne_zero.mpr hk
  have hp : ((k : ℝ)) / (((k + k : ℕ)) : ℝ) = 2⁻¹ := by
    push_cast
    field_simp
    ring
  rw [hp, if_pos (by norm_num : ((2 : ℝ)⁻¹ > 0)), logb_two_inv]
  norm_num

theorem entropy_quad_eq_two (x y z w : String) (k : ℕ) (hk : k ≠ 0) :
    calculate_entropy_from_counts [(x, k), (y, k), (z, k), (w, k)] = 2 := by
  simp only [calculate_entropy_from_counts, List.map_cons, List.map_nil,
    List.sum_cons, List.sum_nil, List.foldl_cons, List.foldl_nil, Nat.add_zero]
  rw [if_neg (by omega : ¬ k + (k + (k + k)) = 0)]
  have hk' : (k : ℝ) ≠ 0 := Nat.cast_ne_zero.mpr hk
  have hp : ((k : ℝ)) / (((k + (k + (k + k)) : ℕ)) : ℝ) = 4⁻¹ := by
    push_cast
    field_simp
    ring
  rw [hp, if_pos (by norm_num : ((4 : ℝ)⁻¹ > 0)), logb_two_quarter]
  norm_num

theorem mkStats_keys (data : List (List String)) :
    (mkStats data).unique_attributes_values.map Prod.fst =
      List.range (numAttrsOf (attributesOf data)) := by
  simp only [mkStats, count_unique_attributes_values, List.map_map]
  have hcomp :
      (Prod.fst ∘ fun i => (i, (uniqueInOrder (columnOf (attributesOf data) i)).length))
        = id := by
    funext i
    rfl
  rw [hcomp, List.map_id]

theorem mkStats_keys_sorted (data : List (List String)) :
    ((mkStats data).unique_attributes_values.map Prod.fst).Pairwise (· < ·) := by
  rw [mkStats_keys]
  exact List.pairwise_lt_range _

theorem bump_dictGet_self (m : List (String × ℕ)) (k : String) :
    dictGet (bump m k) k = some ((dictGet m k).getD 0 + 1) := by
  induction m with
  | nil => simp [bump, dictGet]
  | cons c rest ih =>
      obtain ⟨k', v⟩ := c
      rw [bump]
      by_cases h : k' = k
      · rw [if_pos h, dictGet, if_pos h, dictGet, if_pos h]
        simp

      · rw [if_neg h, dictGet, if_neg h, dictGet, if_neg h]
        exact ih

theorem bump_dictGet_ne (m : List (String × ℕ)) (k k' : String) (h : k' ≠ k) :
    dictGet (bump m k) k' = dictGet m k' := by
  induction m with
  | nil =>
      simp only [bump, dictGet]
      rw [if_neg (fun hc : k = k' => h hc.symm)]
  | cons c rest ih =>
      obtain ⟨k₀, v⟩ := c
      rw [bump]
      by_cases h0 : k₀ = k
      · rw [if_pos h0, dictGet, dictGet]
        subst h0
        rw [if_neg (fun hc => h hc.symm), if_neg (fun hc => h hc.symm)]
      · rw [if_neg h0, dictGet, dictGet]
        by_cases h1 : k₀ = k'
        · rw [if_pos h1, if_pos h1]
        · rw [if_neg h1, if_neg h1]
          exact ih

theorem bumpNested_dictGet_self (m : List (String × List (String × ℕ)))
    (v d : String) :
    dictGet (bumpNested m v d) v = some (bump ((dictGet m v).getD []) d) := by
  induction m with
  | nil => simp [bumpNested, dictGet, bump]
  | cons c rest ih =>
      obtain ⟨v', inner⟩ := c
      rw [bumpNested]
      by_cases h : v' = v
      · rw [if_pos h, dictGet, if_pos h, dictGet, if_pos h]
        simp
      · rw [if_neg h, dictGet, if_neg h, dictGet, if_neg h]
        exact ih

theorem bumpNested_dictGet_ne (m : List (String × List (String × ℕ)))
    (v d v' : String) (h : v' ≠ v) :
    dictGet (bumpNested m v d) v' = dictGet m v' := by
  induction m with
  | nil =>
      simp only [bumpNested, dictGet]
      rw [if_neg (fun hc : v = v' => h hc.symm)]
  | cons c rest ih =>
      obtain ⟨v₀, inner⟩ := c
      rw [bumpNested]
      by_cases h0 : v₀ = v
      · rw [if_pos h0, dictGet, dictGet]
        subst h0
        rw [if_neg (fun hc => h hc.symm), if_neg (fun hc => h hc.symm)]
      · rw [if_neg h0, dictGet, dictGet]
        by_cases h1 : v₀ = v'
        · rw [if_pos h1, if_pos h1]
        · rw [if_neg h1, if_neg h1]
          exact ih

/-- Parallel-fold invariant: the per-value label totals of the nested count
dict track the per-value occurrence counts. -/
theorem adc_invariant :
    ∀ (pairs : List (String × String)) (m : List (String × List (String × ℕ)))
      (occ : List (String × ℕ)),
      (∀ v, valsSum ((dictGet m v).getD []) = (dictGet occ v).getD 0) →
      ∀ v,
        valsSum ((dictGet
          (pairs.foldl (fun m p => bumpNested m p.1 p.2) m) v).getD [])
        = (dictGet ((pairs.map Prod.fst).foldl bump occ) v).getD 0 := by
  intro pairs
  induction pairs with
  | nil => intro m occ h v; exact h v
  | cons p ps ih =>
      intro m occ h v
      rw [List.foldl_cons, List.map_cons, List.foldl_cons]
      apply ih
      intro u
      by_cases hu : u = p.1
      · subst hu
        rw [bumpNested_dictGet_self, bump_dictGet_self]
        simp only [Option.getD_some]
        rw [valsSum_bump, h p.1]
      · rw [bumpNested_dictGet_ne _ _ _ _ hu, bump_dictGet_ne _ _ _ hu]
        exact h u

theorem valueKeys_mkStats (data : List (List String)) (i : ℕ)
    (h : i < numAttrsOf (attributesOf data)) :
    valueKeys (mkStats data) i = uniqueInOrder (columnOf (attributesOf data) i) := by
  rw [valueKeys,
    show (mkStats data).value_occurrences
      = count_value_occurrences (attributesOf data) from rfl,
    dictGet_value_occurrences _ _ h]
  simp only [Option.getD_some]
  exact dictKeys_foldl_bump_nil _

/-- An 8-row dataset with three attributes (columns: a1 ∈ {u,w,x,y},
a2 ∈ {p,q}, a3 ∈ {m,n,o,t}) and binary labels, exhibiting the divergence
between global and subset-scoped gain ratios: globally a1 and a3 tie at gain
ratio 1/4 and a2 has gain ratio 0, while inside the branch a1 = u the
attribute a2 separates the labels perfectly and a3 is constant. -/
def data8 : List (List String) :=
  [["u", "p", "m", "Y"],
   ["u", "q", "m", "N"],
   ["w", "q", "n", "Y"],
   ["w", "p", "n", "Y"],
   ["x", "p", "o", "N"],
   ["x", "q", "o", "N"],
   ["y", "q", "t", "Y"],
   ["y", "p", "t", "N"]]

theorem entropy8 : calculate_entropy (mkStats data8) = 1 := by
  rw [calculate_entropy,
    show (mkStats data8).decision_counts = [("Y", 4), ("N", 4)] from rfl]
  exact entropy_pair_eq_one _ _ 4 (by norm_num)

theorem cond8_0 : calculate_conditional_entropy (mkStats data8) 0 = 2⁻¹ := by
  rw [calculate_conditional_entropy,
    show dictGet (mkStats data8).attribute_decision_counts 0 =
      some [("u", [("Y", 1), ("N", 1)]), ("w", [("Y", 2)]), ("x", [("N", 2)]),
        ("y", [("Y", 1), ("N", 1)])] from rfl,
    show (mkStats data8).decisions.length = 8 from rfl]
  simp only [Option.getD_some, List.foldl_cons, List.foldl_nil]
  rw [entropy_pair_eq_one "Y" "N" 1 (by norm_num),
    entropy_single_eq_zero "Y" 2 (by norm_num),
    entropy_single_eq_zero "N" 2 (by norm_num)]
  norm_num

theorem cond8_1 : calculate_conditional_entropy (mkStats data8) 1 = 1 := by
  rw [calculate_conditional_entropy,
    show dictGet (mkStats data8).attribute_decision_counts 1 =
      some [("p", [("Y", 2), ("N", 2)]), ("q", [("N", 2), ("Y", 2)])] from rfl,
    show (mkStats data8).decisions.length = 8 from rfl]
  simp only [Option.getD_some, List.foldl_cons, List.foldl_nil]
  rw [entropy_pair_eq_one "Y" "N" 2 (by norm_num),
    entropy_pair_eq_one "N" "Y" 2 (by norm_num)]
  norm_num

theorem cond8_2 : calculate_conditional_entropy (mkStats data8) 2 = 2⁻¹ := by
  rw [calculate_conditional_entropy,
    show dictGet (mkStats data8).attribute_decision_counts 2 =
      some [("m", [("Y", 1), ("N", 1)]), ("n", [("Y", 2)]), ("o", [("N", 2)]),
        ("t", [("Y", 1), ("N", 1)])] from rfl,
    show (mkStats data8).decisions.length = 8 from rfl]
  simp only [Option.getD_some, List.foldl_cons, List.foldl_nil]
  rw [entropy_pair_eq_one "Y" "N" 1 (by norm_num),
    entropy_single_eq_zero "Y" 2 (by norm_num),
    entropy_single_eq_zero "N" 2 (by norm_num)]
  norm_num

theorem split8_0 : calculate_split_information (mkStats data8) 0 = 2 := by
  rw [calculate_split_information,
    show dictGet (mkStats data8).value_occurrences 0 =
      some [("u", 2), ("w", 2), ("x", 2), ("y", 2)] from rfl]
  exact entropy_quad_eq_two _ _ _ _ 2 (by norm_num)

theorem split8_1 : calculate_split_information (mkStats data8) 1 = 1 := by
  rw [calculate_split_information,
    show dictGet (mkStats data8).value_occurrences 1 =
      some [("p", 4), ("q", 4)] from rfl]
  exact entropy_pair_eq_one _ _ 4 (by norm_num)

theorem split8_2 : calculate_split_information (mkStats data8) 2 = 2 := by
  rw [calculate_split_information,
    show dictGet (mkStats data8).value_occurrences 2 =
      some [("m", 2), ("n", 2), ("o", 2), ("t", 2)] from rfl]
  exact entropy_quad_eq_two _ _ _ _ 2 (by norm_num)

theorem gain8_0 : calculate_gain_ratio (mkStats data8) 0 = 4⁻¹ := by
  rw [calculate_gain_ratio, split8_0, calculate_information_gain, entropy8,
    cond8_0, if_neg (by norm_num : ¬ (2 : ℝ) = 0)]
  norm_num

theorem gain8_1 : calculate_gain_ratio (mkStats data8) 1 = 0 := by
  rw [calculate_gain_ratio, split8_1, calculate_information_gain, entropy8,
    cond8_1, if_neg (by norm_num : ¬ (1 : ℝ) = 0)]
  norm_num

theorem gain8_2 : calculate_gain_ratio (mkStats data8) 2 = 4⁻¹ := by
  rw [calculate_gain_ratio, split8_2, calculate_information_gain, entropy8,
    cond8_2, if_neg (by norm_num : ¬ (2 : ℝ) = 0)]
  norm_num

theorem sel8_root : selectAttr (mkStats data8) ∅ = (some 0, 4⁻¹) := by
  rw [selectAttr,
    show (mkStats data8).unique_attributes_values.map Prod.fst = [0, 1, 2]
      from rfl]
  simp only [List.foldl_cons, List.foldl_nil]
  rw [gain8_0, gain8_1, gain8_2]
  norm_num

theorem sel8_u : selectAttr (mkStats data8) (insert 0 ∅) = (some 2, 4⁻¹) := by
  rw [selectAttr,
    show (mkStats data8).unique_attributes_values.map Prod.fst = [0, 1, 2]
      from rfl]
  simp only [List.foldl_cons, List.foldl_nil]
  rw [gain8_0, gain8_1, gain8_2]
  norm_num

theorem sel8_um : selectAttr (mkStats data8) (insert 2 (insert 0 ∅))
    = (some 1, 0) := by
  rw [selectAttr,
    show (mkStats data8).unique_attributes_values.map Prod.fst = [0, 1, 2]
      from rfl]
  simp only [List.foldl_cons, List.foldl_nil]
  rw [gain8_0, gain8_1, gain8_2]
  norm_num

theorem build_leaf (s : Stats) (idx : List ℕ) (used : Finset ℕ)
    (h : (uniqueInOrder (idx.map (fun i => s.decisions.getD i ""))).length = 1) :
    build_tree s idx used =
      some (DTNode.decision
        ((idx.map (fun i => s.decisions.getD i "")).headD "")) := by
  rw [build_tree]
  simp only [if_pos h]

theorem build_split (s : Stats) (idx : List ℕ) (used : Finset ℕ) (a : ℕ)
    (children : List (String × DTNode))
    (hnp : (uniqueInOrder (idx.map (fun i => s.decisions.getD i ""))).length ≠ 1)
    (hsel : (selectAttr s used).1 = some a)
    (hch : build_children s idx (idx.map (fun i => s.decisions.getD i ""))
      (insert a used) a (valueKeys s a) = some children) :
    build_tree s idx used = some (DTNode.attr a children) := by
  rw [build_tree]
  rw [if_neg hnp]
  split
  · rename_i heq
    rw [hsel] at heq
    simp at heq
  · rename_i bestAttr heq
    rw [hsel] at heq
    obtain rfl : a = bestAttr := by simpa using heq
    rw [hch]

theorem b8_leaf0 (U : Finset ℕ) :
    build_tree (mkStats data8) [0] U = some (DTNode.decision "Y") :=
  build_leaf (mkStats data8) [0] U (by decide)

theorem b8_leaf1 (U : Finset ℕ) :
    build_tree (mkStats data8) [1] U = some (DTNode.decision "N") :=
  build_leaf (mkStats data8) [1] U (by decide)

theorem b8_leaf23 (U : Finset ℕ) :
    build_tree (mkStats data8) [2, 3] U = some (DTNode.decision "Y") :=
  build_leaf (mkStats data8) [2, 3] U (by decide)

theorem b8_leaf45 (U : Finset ℕ) :
    build_tree (mkStats data8) [4, 5] U = some (DTNode.decision "N") :=
  build_leaf (mkStats data8) [4, 5] U (by decide)

theorem b8_leaf6 (U : Finset ℕ) :
    build_tree (mkStats data8) [6] U = some (DTNode.decision "Y") :=
  build_leaf (mkStats data8) [6] U (by decide)

theorem b8_leaf7 (U : Finset ℕ) :
    build_tree (mkStats data8) [7] U = some (DTNode.decision "N") :=
  build_leaf (mkStats data8) [7] U (by decide)

theorem b8_m01 : build_tree (mkStats data8) [0, 1] (insert 2 (insert 0 ∅)) =
    some (DTNode.attr 1
      [("p", DTNode.decision "Y"), ("q", DTNode.decision "N")]) := by
  apply build_split _ _ _ _ _ (by decide) (by rw [sel8_um])
  rw [show valueKeys (mkStats data8) 1 = ["p", "q"] from rfl]
  simp only [build_children, List.cons_ne_nil, if_true, if_false,
    show subsetAt (mkStats data8) [0, 1] 1 "p" = [0] from rfl,
    show subsetAt (mkStats data8) [0, 1] 1 "q" = [1] from rfl,
    b8_leaf0, b8_leaf1]

theorem b8_u : build_tree (mkStats data8) [0, 1] (insert 0 ∅) =
    some (DTNode.attr 2
      [("m", DTNode.attr 1 [("p", DTNode.decision "Y"), ("q", DTNode.decision "N")]),
       ("n", DTNode.decision "Y"), ("o", DTNode.decision "Y"),
       ("t", DTNode.decision "Y")]) := by
  apply build_split _ _ _ _ _ (by decide) (by rw [sel8_u])
  rw [show valueKeys (mkStats data8) 2 = ["m", "n", "o", "t"] from rfl]
  simp only [build_children, List.cons_ne_nil, if_true, if_false,
    show subsetAt (mkStats data8) [0, 1] 2 "m" = [0, 1] from rfl,
    show subsetAt (mkStats data8) [0, 1] 2 "n" = [] from rfl,
    show subsetAt (mkStats data8) [0, 1] 2 "o" = [] from rfl,
    show subsetAt (mkStats data8) [0, 1] 2 "t" = [] from rfl,
    show majorityLabel ([0, 1].map (fun i => (mkStats data8).decisions.getD i ""))
      = some "Y" from rfl,
    b8_m01]

theorem b8_t67 : build_tree (mkStats data8) [6, 7] (insert 2 (insert 0 ∅)) =
    some (DTNode.attr 1
      [("p", DTNode.decision "N"), ("q", DTNode.decision "Y")]) := by
  apply build_split _ _ _ _ _ (by decide) (by rw [sel8_um])
  rw [show valueKeys (mkStats data8) 1 = ["p", "q"] from rfl]
  simp only [build_children, List.cons_ne_nil, if_true, if_false,
    show subsetAt (mkStats data8) [6, 7] 1 "p" = [7] from rfl,
    show subsetAt (mkStats data8) [6, 7] 1 "q" = [6] from rfl,
    b8_leaf6, b8_leaf7]

theorem b8_y : build_tree (mkStats data8) [6, 7] (insert 0 ∅) =
    some (DTNode.attr 2
      [("m", DTNode.decision "Y"), ("n", DTNode.decision "Y"),
       ("o", DTNode.decision "Y"),
       ("t", DTNode.attr 1 [("p", DTNode.decision "N"), ("q", DTNode.decision "Y")])]) := by
  apply build_split _ _ _ _ _ (by decide) (by rw [sel8_u])
  rw [show valueKeys (mkStats data8) 2 = ["m", "n", "o", "t"] from rfl]
  simp only [build_children, List.cons_ne_nil, if_true, if_false,
    show subsetAt (mkStats data8) [6, 7] 2 "m" = [] from rfl,
    show subsetAt (mkStats data8) [6, 7] 2 "n" = [] from rfl,
    show subsetAt (mkStats data8) [6, 7] 2 "o" = [] from rfl,
    show subsetAt (mkStats data8) [6, 7] 2 "t" = [6, 7] from rfl,
    show majorityLabel ([6, 7].map (fun i => (mkStats data8).decisions.getD i ""))
      = some "Y" from rfl,
    b8_t67]

/-- The tree the source builds from `data8`: the root tests attribute 0; its
`u` branch tests attribute 2 (global gain ratio 1/4) even though attribute 1
perfectly separates the two rows of that branch. -/
def cexTree : DTNode :=
  DTNode.attr 0
    [("u", DTNode.attr 2
        [("m", DTNode.attr 1 [("p", DTNode.decision "Y"), ("q", DTNode.decision "N")]),
         ("n", DTNode.decision "Y"), ("o", DTNode.decision "Y"),
         ("t", DTNode.decision "Y")]),
     ("w", DTNode.decision "Y"),
     ("x", DTNode.decision "N"),
     ("y", DTNode.attr 2
        [("m", DTNode.decision "Y"), ("n", DTNode.decision "Y"),
         ("o", DTNode.decision "Y"),
         ("t", DTNode.attr 1 [("p", DTNode.decision "N"), ("q", DTNode.decision "Y")])])]

theorem b8_root : build_tree (mkStats data8) (List.range 8) ∅ = some cexTree := by
  apply build_split _ _ _ _ _ (by decide) (by rw [sel8_root])
  rw [show valueKeys (mkStats data8) 0 = ["u", "w", "x", "y"] from rfl]
  simp only [build_children, List.cons_ne_nil, if_true, if_false,
    show subsetAt (mkStats data8) (List.range 8) 0 "u" = [0, 1] from by decide,
    show subsetAt (mkStats data8) (List.range 8) 0 "w" = [2, 3] from by decide,
    show subsetAt (mkStats data8) (List.range 8) 0 "x" = [4, 5] from by decide,
    show subsetAt (mkStats data8) (List.range 8) 0 "y" = [6, 7] from by decide,
    b8_u, b8_leaf23, b8_leaf45, b8_y]

theorem subset8_1 : subsetGainRatio data8 [0, 1] 1 = 1 := by
  rw [subsetGainRatio,
    show ([0, 1].map (fun i => data8.getD i []))
      = [["u", "p", "m", "Y"], ["u", "q", "m", "N"]] from rfl]
  have hsplit : calculate_split_information
      (mkStats [["u", "p", "m", "Y"], ["u", "q", "m", "N"]]) 1 = 1 := by
    rw [calculate_split_information,
      show dictGet
        (mkStats [["u", "p", "m", "Y"], ["u", "q", "m", "N"]]).value_occurrences 1
        = some [("p", 1), ("q", 1)] from rfl]
    exact entropy_pair_eq_one _ _ 1 (by norm_num)
  have hH : calculate_entropy
      (mkStats [["u", "p", "m", "Y"], ["u", "q", "m", "N"]]) = 1 := by
    rw [calculate_entropy,
      show (mkStats [["u", "p", "m", "Y"], ["u", "q", "m", "N"]]).decision_counts
        = [("Y", 1), ("N", 1)] from rfl]
    exact entropy_pair_eq_one _ _ 1 (by norm_num)
  have hcond : calculate_conditional_entropy
      (mkStats [["u", "p", "m", "Y"], ["u", "q", "m", "N"]]) 1 = 0 := by
    rw [calculate_conditional_entropy,
      show dictGet
        (mkStats [["u", "p", "m", "Y"], ["u", "q", "m", "N"]]).attribute_decision_counts 1
        = some [("p", [("Y", 1)]), ("q", [("N", 1)])] from rfl,
      show (mkStats [["u", "p", "m", "Y"], ["u", "q", "m", "N"]]).decisions.length
        = 2 from rfl]
    simp only [Option.getD_some, List.foldl_cons, List.foldl_nil]
    rw [entropy_single_eq_zero "Y" 1 (by norm_num),
      entropy_single_eq_zero "N" 1 (by norm_num)]
    norm_num
  rw [calculate_gain_ratio, hsplit, calculate_information_gain, hH, hcond,
    if_neg (by norm_num : ¬ (1 : ℝ) = 0)]
  norm_num

theorem subset8_2 : subsetGainRatio data8 [0, 1] 2 = 0 := by
  rw [subsetGainRatio,
    show ([0, 1].map (fun i => data8.getD i []))
      = [["u", "p", "m", "Y"], ["u", "q", "m", "N"]] from rfl]
  have hsplit : calculate_split_information
      (mkStats [["u", "p", "m", "Y"], ["u", "q", "m", "N"]]) 2 = 0 := by
    rw [calculate_split_information,
      show dictGet
        (mkStats [["u", "p", "m", "Y"], ["u", "q", "m", "N"]]).value_occurrences 2
        = some [("m", 2)] from rfl]
    exact entropy_single_eq_zero _ 2 (by norm_num)
  rw [calculate_gain_ratio, hsplit, if_pos rfl]

theorem b1_root : build_tree (mkStats [["a", "yes"]])
    (List.range (decisionsOf [["a", "yes"]]).length) ∅
    = some (DTNode.decision "yes") :=
  build_leaf _ _ _ (by decide)

/-- C1, refuted on the code: building from `data8`, the recursive call at
row subset `[0, 1]` with used set `{0}` (the `u` branch of the root, visible
as the first child of `cexTree`) selects attribute 2, although the gain
ratios recomputed over the subset `[0, 1]` are 1 for candidate attribute 1
and 0 for candidate attribute 2 — so the builder does not select the
attribute with the strictly highest subset gain ratio; it reuses the global
gain ratios (0 for attribute 1, 1/4 for attribute 2). -/
theorem C1_counterexample :
    build_tree (mkStats data8) (List.range 8) ∅ = some cexTree ∧
    (selectAttr (mkStats data8) (insert 0 ∅)).1 = some 2 ∧
    subsetGainRatio data8 [0, 1] 1 = 1 ∧
    subsetGainRatio data8 [0, 1] 2 = 0 ∧
    calculate_gain_ratio (mkStats data8) 1 = 0 ∧
    calculate_gain_ratio (mkStats data8) 2 = 4⁻¹ :=
  ⟨b8_root, by rw [sel8_u], subset8_1, subset8_2, gain8_1, gain8_2⟩

/-- C1 (amended): in the candidate-selection step of `_build_tree` (which
invokes `calculate_gain_ratio`, a function of the global frequency tables
only — it receives no row subset), the selected attribute attains the maximal
global gain ratio among the candidate attributes not in `usedAttrs`, and on
ties the candidate occurring first in the ascending key-iteration order
wins. -/
theorem C1_amended_global_selection (s : Stats) (used : Finset ℕ) (a : ℕ)
    (h : (selectAttr s used).1 = some a) :
    a ∈ candidates s used ∧
    (∀ b ∈ candidates s used,
      calculate_gain_ratio s b ≤ calculate_gain_ratio s a) ∧
    ∃ l₁ l₂, candidates s used = l₁ ++ a :: l₂ ∧
      ∀ b ∈ l₁, calculate_gain_ratio s b < calculate_gain_ratio s a := by
  obtain ⟨h1, _, h3, h4⟩ := selectAttr_spec s used a h
  exact ⟨h1, h3, h4⟩

/-- C1 witness: the root selection on `data8` picks attribute 0, and the
amended characterization holds there. -/
theorem C1_amended_witness :
    (selectAttr (mkStats data8) ∅).1 = some 0 ∧
    (0 ∈ candidates (mkStats data8) ∅ ∧
      (∀ b ∈ candidates (mkStats data8) ∅,
        calculate_gain_ratio (mkStats data8) b ≤
          calculate_gain_ratio (mkStats data8) 0) ∧
      ∃ l₁ l₂, candidates (mkStats data8) ∅ = l₁ ++ 0 :: l₂ ∧
        ∀ b ∈ l₁,
          calculate_gain_ratio (mkStats data8) b <
            calculate_gain_ratio (mkStats data8) 0) :=
  have h : (selectAttr (mkStats data8) ∅).1 = some 0 := by rw [sel8_root]
  ⟨h, C1_amended_global_selection (mkStats data8) ∅ 0 h⟩

/-- C2: in every tree built by `_build_tree` from a loaded dataset, every
attribute node's set of branch labels equals exactly the set of distinct
values its tested attribute takes across the entire original dataset, and
every leaf carries a decision label occurring in the original dataset's label
list. -/
theorem C2_branches_and_leaves (data : List (List String)) (t : DTNode)
    (hb : build_tree (mkStats data) (List.range (decisionsOf data).length) ∅
      = some t) :
    (∀ pr ∈ attrNodes t, ∀ v,
      v ∈ pr.2 ↔ v ∈ columnOf (attributesOf data) pr.1) ∧
    (∀ l ∈ leafLabels t, l ∈ decisionsOf data) := by
  have hB := build_tree_sound _ _ _ _ hb
  constructor
  · intro pr hpr v
    obtain ⟨hkey, hvals⟩ := builds_attrNodes _ _ _ _ hB pr hpr
    rw [mkStats_keys] at hkey
    have hlt : pr.1 < numAttrsOf (attributesOf data) := List.mem_range.mp hkey
    rw [hvals, valueKeys_mkStats _ _ hlt, mem_uniqueInOrder]
  · intro l hl
    have hvalid : ∀ i ∈ List.range (decisionsOf data).length,
        i < (mkStats data).decisions.length := by
      intro i hi
      simpa using List.mem_range.mp hi
    exact builds_leafLabels _ _ _ _ hB hvalid l hl

/-- C2 witness: the single-row dataset builds the single leaf `yes`, which
satisfies both conjuncts. -/
theorem C2_witness :
    (∀ pr ∈ attrNodes (DTNode.decision "yes"), ∀ v,
      v ∈ pr.2 ↔ v ∈ columnOf (attributesOf [["a", "yes"]]) pr.1) ∧
    (∀ l ∈ leafLabels (DTNode.decision "yes"), l ∈ decisionsOf [["a", "yes"]]) :=
  C2_branches_and_leaves [["a", "yes"]] (DTNode.decision "yes") b1_root

/-- C3: in every tree built by `_build_tree` from a loaded dataset, no
root-to-leaf path tests the same attribute index twice, and the number of
attribute nodes on any path (hence the tree depth in edges) is at most the
number of attributes. -/
theorem C3_no_repeat_bounded_depth (data : List (List String)) (t : DTNode)
    (hb : build_tree (mkStats data) (List.range (decisionsOf data).length) ∅
      = some t) :
    ∀ p ∈ pathsOf t, p.Nodup ∧ p.length ≤ numAttrsOf (attributesOf data) := by
  have hB := build_tree_sound _ _ _ _ hb
  intro p hp
  obtain ⟨hnodup, hmem⟩ := builds_paths_nodup _ _ _ _ hB p hp
  refine ⟨hnodup, ?_⟩
  have hsub : ∀ a ∈ p, a ∈ List.range (numAttrsOf (attributesOf data)) := by
    intro a ha
    have h2 := (hmem a ha).2
    rwa [mkStats_keys] at h2
  calc p.length = p.toFinset.card := (List.toFinset_card_of_nodup hnodup).symm
    _ ≤ (List.range (numAttrsOf (attributesOf data))).toFinset.card := by
        apply Finset.card_le_card
        intro a ha
        rw [List.mem_toFinset] at ha ⊢
        exact hsub a ha
    _ ≤ (List.range (numAttrsOf (attributesOf data))).length :=
        List.toFinset_card_le _
    _ = numAttrsOf (attributesOf data) := List.length_range _

/-- C3 witness: the single-row dataset gives the single path `[]`, which is
duplicate-free and within the attribute bound. -/
theorem C3_witness :
    ([] : List ℕ).Nodup ∧
      ([] : List ℕ).length ≤ numAttrsOf (attributesOf [["a", "yes"]]) :=
  C3_no_repeat_bounded_depth [["a", "yes"]] (DTNode.decision "yes") b1_root []
    (by simp [pathsOf])

/-- C4: on every non-empty row-index subset (of valid row indices) and every
used-attribute set, `_build_tree` returns a node without raising, and the run
satisfies `Builds`, whose `split` constructor certifies that recursion is
invoked exactly on the non-empty branch subsets (`hrec`) while an empty
branch partition becomes, at the parent, a leaf labelled with the majority
label of the current subset's decisions (`hempty`). -/
theorem C4_total_no_empty_recursion (s : Stats) (dataIndices : List ℕ)
    (used : Finset ℕ) (hvalid : ∀ i ∈ dataIndices, i < s.decisions.length)
    (hne : dataIndices ≠ []) :
    ∃ t, build_tree s dataIndices used = some t ∧
      Builds s dataIndices used t := by
  obtain ⟨t, ht⟩ :=
    Option.ne_none_iff_exists'.mp (build_tree_ne_none s dataIndices used hne)
  exact ⟨t, ht, build_tree_sound s dataIndices used t ht⟩

/-- C4 witness: the single-row call. -/
theorem C4_witness :
    ∃ t, build_tree (mkStats [["a", "yes"]]) [0] ∅ = some t ∧
      Builds (mkStats [["a", "yes"]]) [0] ∅ t :=
  C4_total_no_empty_recursion (mkStats [["a", "yes"]]) [0] ∅ (by decide)
    (by decide)

/-- C5: for every label-count table, the entropy function returns `0.0` on a
zero total, and otherwise returns `-Σ (c/T) · log2 (c/T)` over the counts
`c > 0`. -/
theorem C5_entropy_formula (counts : List (String × ℕ)) :
    ((counts.map Prod.snd).sum = 0 → calculate_entropy_from_counts counts = 0) ∧
    (0 < (counts.map Prod.snd).sum →
      calculate_entropy_from_counts counts =
        -((counts.map (fun c =>
            if 0 < c.2 then
              ((c.2 : ℝ) / (((counts.map Prod.snd).sum : ℕ) : ℝ)) *
                Real.logb 2
                  ((c.2 : ℝ) / (((counts.map Prod.snd).sum : ℕ) : ℝ))
            else 0)).sum)) := by
  constructor
  · intro h
    simp only [calculate_entropy_from_counts]
    rw [if_pos h]
  · intro h
    have hT : (0 : ℝ) < (((counts.map Prod.snd).sum : ℕ) : ℝ) := by
      exact_mod_cast h
    simp only [calculate_entropy_from_counts]
    rw [if_neg (by omega), entropy_foldl_eq, zero_sub]
    congr 1
    refine congrArg List.sum ?_
    apply List.map_congr_left
    intro c hc
    have hcond : (((c.2 : ℝ) / (((counts.map Prod.snd).sum : ℕ) : ℝ)) > 0)
        ↔ 0 < c.2 := by
      constructor
      · intro hgt
        by_contra hc0
        have : c.2 = 0 := by omega
        rw [this] at hgt
        simp at hgt
      · intro hpos
        exact div_pos (by exact_mod_cast hpos) hT
    rw [if_congr hcond rfl rfl]

/-- C5 witness: the empty table has entropy 0, and a singleton table
instantiates the positive-total formula (which there evaluates to 0). -/
theorem C5_witness :
    (calculate_entropy_from_counts [] = 0) ∧
    0 < (([("a", 1)] : List (String × ℕ)).map Prod.snd).sum ∧
    calculate_entropy_from_counts [("a", 1)] = 0 := by
  refine ⟨(C5_entropy_formula []).1 rfl, by decide, ?_⟩
  have h := (C5_entropy_formula [("a", 1)]).2 (by decide)
  simpa [Real.logb_one] using h

/-- C6: the gain ratio of an attribute is 0 whenever its split information is
0, and in particular whenever the attribute takes a single distinct value
across the evaluated rows (any dataset handed to the statistics engine). -/
theorem C6_gain_ratio_zero :
    (∀ (s : Stats) (i : ℕ), calculate_split_information s i = 0 →
      calculate_gain_ratio s i = 0) ∧
    (∀ (data : List (List String)) (i : ℕ),
      (uniqueInOrder (columnOf (attributesOf data) i)).length = 1 →
      calculate_gain_ratio (mkStats data) i = 0) := by
  constructor
  · intro s i h
    rw [calculate_gain_ratio, if_pos h]
  · intro data i h
    have hsplit : calculate_split_information (mkStats data) i = 0 := by
      by_cases hi : i < numAttrsOf (attributesOf data)
      · rw [calculate_split_information,
          show (mkStats data).value_occurrences
            = count_value_occurrences (attributesOf data) from rfl,
          dictGet_value_occurrences _ _ hi]
        simp only [Option.getD_some]
        obtain ⟨v, hv⟩ := List.length_eq_one.mp h
        rw [foldl_bump_const_of_unique _ _ hv]
        apply entropy_single_eq_zero
        intro hc
        have hnil : columnOf (attributesOf data) i = [] :=
          List.length_eq_zero.mp hc
        rw [hnil] at hv
        simp [uniqueInOrder, dedupFirst] at hv
      · rw [calculate_split_information,
          show (mkStats data).value_occurrences
            = count_value_occurrences (attributesOf data) from rfl,
          dictGet_value_occurrences_none _ _ hi]
        simp [calculate_entropy_from_counts]
    rw [calculate_gain_ratio, if_pos hsplit]

/-- C6 witness: in the two-row subset of `data8`, attribute 0 is constant
(value `u`), and its gain ratio is 0. -/
theorem C6_witness :
    (calculate_split_information (mkStats [["u", "p", "m", "Y"]]) 0 = 0 →
      calculate_gain_ratio (mkStats [["u", "p", "m", "Y"]]) 0 = 0) ∧
    ((uniqueInOrder
        (columnOf (attributesOf [["u", "p", "m", "Y"], ["u", "q", "m", "N"]]) 0)).length
        = 1 ∧
      calculate_gain_ratio
        (mkStats [["u", "p", "m", "Y"], ["u", "q", "m", "N"]]) 0 = 0) :=
  ⟨C6_gain_ratio_zero.1 (mkStats [["u", "p", "m", "Y"]]) 0,
   by decide,
   C6_gain_ratio_zero.2 [["u", "p", "m", "Y"], ["u", "q", "m", "N"]] 0 (by decide)⟩

/-- C7: after loading a dataset whose rows all have the same length, all
counts are non-negative integers, each attribute's value occurrences sum to
the total row count, and for each attribute and value the label counts sum to
that value's occurrence count. -/
theorem C7_frequency_invariants (data : List (List String)) (k : ℕ)
    (hrows : ∀ row ∈ data, row.length = k) :
    (∀ pr ∈ (mkStats data).value_occurrences, ∀ c ∈ pr.2, 0 ≤ c.2) ∧
    (∀ pr ∈ (mkStats data).value_occurrences, valsSum pr.2 = data.length) ∧
    (∀ i < numAttrsOf (attributesOf data), ∀ v : String,
      valsSum ((dictGet
          ((dictGet (mkStats data).attribute_decision_counts i).getD []) v).getD [])
        = (dictGet
            ((dictGet (mkStats data).value_occurrences i).getD []) v).getD 0) := by
  refine ⟨?_, ?_, ?_⟩
  · intro pr _ c _
    exact Nat.zero_le _
  · intro pr hpr
    rw [show (mkStats data).value_occurrences
        = count_value_occurrences (attributesOf data) from rfl,
      count_value_occurrences] at hpr
    obtain ⟨i, hi, rfl⟩ := List.mem_map.mp hpr
    show valsSum ((columnOf (attributesOf data) i).foldl bump []) = data.length
    rw [valsSum_foldl_bump]
    simp [columnOf, attributesOf, valsSum]
  · intro i hi v
    rw [show (mkStats data).attribute_decision_counts
        = calculate_attribute_decision_counts (attributesOf data) (decisionsOf data)
        from rfl,
      show (mkStats data).value_occurrences
        = count_value_occurrences (attributesOf data) from rfl,
      dictGet_attribute_decision_counts _ _ _ hi, dictGet_value_occurrences _ _ hi]
    simp only [Option.getD_some]
    have hz : (((columnOf (attributesOf data) i).zip (decisionsOf data)).map Prod.fst)
        = columnOf (attributesOf data) i := by
      apply List.map_fst_zip
      simp [columnOf, attributesOf, decisionsOf]
    have h := adc_invariant
      ((columnOf (attributesOf data) i).zip (decisionsOf data)) [] []
      (by intro u; simp [dictGet, valsSum]) v
    rw [hz] at h
    exact h

/-- C7 witness: the invariants instantiated on `data8` (uniform row length
4). -/
theorem C7_witness :
    (∀ row ∈ data8, row.length = 4) ∧
    ((∀ pr ∈ (mkStats data8).value_occurrences, ∀ c ∈ pr.2, 0 ≤ c.2) ∧
     (∀ pr ∈ (mkStats data8).value_occurrences, valsSum pr.2 = data8.length) ∧
     (∀ i < numAttrsOf (attributesOf data8), ∀ v : String,
       valsSum ((dictGet
           ((dictGet (mkStats data8).attribute_decision_counts i).getD []) v).getD [])
         = (dictGet
             ((dictGet (mkStats data8).value_occurrences i).getD []) v).getD 0)) :=
  ⟨by decide, C7_frequency_invariants data8 4 (by decide)⟩

/-- C8: reloading the same dataset from any prior object state produces the
identical result state — in particular the identical tree root (same shape,
same tested attribute at each node, same leaf labels) — because `load_data`
recomputes every field of the object from the dataset alone and every
tie-break in the pipeline is a fixed function of the dataset's order. -/
theorem C8_deterministic_rebuild (st₁ st₂ : TreeState)
    (data : List (List String)) (hne : data ≠ []) :
    load_data st₁ data = load_data st₂ data ∧
    ∀ a b, load_data st₁ data = Except.ok a →
      load_data st₂ data = Except.ok b → a.tree_root = b.tree_root := by
  obtain ⟨r, rs, rfl⟩ := List.exists_cons_of_ne_nil hne
  refine ⟨rfl, ?_⟩
  intro a b h1 h2
  have h3 : (Except.ok a : Except TreeState TreeState) = Except.ok b := by
    rw [← h1, ← h2]
    rfl
  obtain rfl : a = b := by simpa using h3
  rfl

/-- C8 witness: reloading the one-row dataset from a dirtied state matches
the load from the fresh state. -/
theorem C8_witness :
    load_data initState [["a", "yes"]]
      = load_data { initState with decisions := ["zzz"] } [["a", "yes"]] :=
  (C8_deterministic_rebuild initState { initState with decisions := ["zzz"] }
    [["a", "yes"]] (by decide)).1

/-- C9: loading zero rows fails — the model of the `IndexError` raised by
`self.attributes[0]` in `_count_unique_attributes_values`, before any
statistics pass runs — and the state carried by the failure keeps the
previous statistics tables and tree root untouched: no statistics, no partial
tree and no tree root are produced. -/
theorem C9_empty_dataset_rejected (st : TreeState) :
    load_data st [] = Except.error
      { st with data := [], attributes := [], decisions := [] } ∧
    ∀ st', load_data st [] = Except.error st' →
      st'.unique_attributes_values = st.unique_attributes_values ∧
      st'.value_occurrences = st.value_occurrences ∧
      st'.decision_counts = st.decision_counts ∧
      st'.attribute_decision_counts = st.attribute_decision_counts ∧
      st'.tree_root = st.tree_root := by
  refine ⟨rfl, ?_⟩
  intro st' h'
  have h3 : Except.error
      ({ st with data := [], attributes := [], decisions := [] } : TreeState)
      = (Except.error st' : Except TreeState TreeState) := by
    rw [← h']
    rfl
  obtain rfl : ({ st with data := [], attributes := [], decisions := [] } : TreeState)
      = st' := by simpa using h3
  exact ⟨rfl, rfl, rfl, rfl, rfl⟩

/-- C9 witness: loading zero rows into a fresh object errors out with all
statistics tables still empty and no tree root. -/
theorem C9_witness :
    load_data initState [] = Except.error
      { initState with data := [], attributes := [], decisions := [] } ∧
    (({ initState with data := [], attributes := [], decisions := [] }
        : TreeState).unique_attributes_values
        = initState.unique_attributes_values ∧
      ({ initState with data := [], attributes := [], decisions := [] }
        : TreeState).value_occurrences = initState.value_occurrences ∧
      ({ initState with data := [], attributes := [], decisions := [] }
        : TreeState).decision_counts = initState.decision_counts ∧
      ({ initState with data := [], attributes := [], decisions := [] }
        : TreeState).attribute_decision_counts
        = initState.attribute_decision_counts ∧
      ({ initState with data := [], attributes := [], decisions := [] }
        : TreeState).tree_root = initState.tree_root) :=
  ⟨(C9_empty_dataset_rejected initState).1,
   (C9_empty_dataset_rejected initState).2 _
     (C9_empty_dataset_rejected initState).1⟩

/-- C10: in any tree built from a loaded dataset, attribute nodes at equal
depth test the same attribute index (path entries at equal positions agree),
and along every root-to-leaf path consecutive tested attributes appear in
descending order of global gain ratio, with ties broken towards the lower
attribute index — because the builder's selection reads only the global
tables and is therefore a function of the used-attribute set alone. -/
theorem C10_depth_uniform_descending (data : List (List String)) (t : DTNode)
    (hb : build_tree (mkStats data) (List.range (decisionsOf data).length) ∅
      = some t) :
    (∀ p ∈ pathsOf t, ∀ q ∈ pathsOf t, ∀ k a b,
      p.get? k = some a → q.get? k = some b → a = b) ∧
    (∀ p ∈ pathsOf t, ∀ k a b,
      p.get? k = some a → p.get? (k + 1) = some b →
      calculate_gain_ratio (mkStats data) b < calculate_gain_ratio (mkStats data) a
        ∨ (calculate_gain_ratio (mkStats data) b
            = calculate_gain_ratio (mkStats data) a ∧ a < b)) := by
  have hB := build_tree_sound _ _ _ _ hb
  constructor
  · intro p hp q hq k a b hpa hqb
    have h1 := builds_path_nth _ _ _ _ hB p hp k a hpa
    have h2 := builds_path_nth _ _ _ _ hB q hq k b hqb
    rw [h1] at h2
    simpa using h2
  · intro p hp k a b hpa hpb
    have h1 := builds_path_nth _ _ _ _ hB p hp k a hpa
    have h2 := builds_path_nth _ _ _ _ hB p hp (k + 1) b hpb
    exact nthSel_pair (mkStats data) (mkStats_keys_sorted data) k ∅ a b h1 h2

/-- C10 witness: instantiated on `data8` and its built tree. -/
theorem C10_witness :
    (∀ p ∈ pathsOf cexTree, ∀ q ∈ pathsOf cexTree, ∀ k a b,
      p.get? k = some a → q.get? k = some b → a = b) ∧
    (∀ p ∈ pathsOf cexTree, ∀ k a b,
      p.get? k = some a → p.get? (k + 1) = some b →
      calculate_gain_ratio (mkStats data8) b < calculate_gain_ratio (mkStats data8) a
        ∨ (calculate_gain_ratio (mkStats data8) b
            = calculate_gain_ratio (mkStats data8) a ∧ a < b)) :=
  C10_depth_uniform_descending data8 cexTree b8_root

end DecisionTreeSpec
